import Mathlib

/-!
Verification development for the docling-core code-chunking engine
(`docling_core/transforms/chunker/code_chunking/`): a shallow embedding of
its range tracker, chunk size processor, chunking facade and tree
extractors, together with theorems settling the specification claims.

Conventions of the embedding:
* Python strings are Lean `String`s; operations that Python performs with
  `str.split("\n")`, `str.strip()`, `str.lstrip(chars)`, `str.rstrip(chars)`
  are modelled character-exactly on `String.data` (`Char` lists), using the
  default Python whitespace set.
* The external tokenizer (`tokenizer.count_tokens`) and the content hash
  (`_new_hash`) are caller-supplied services in the design, so they are
  function parameters `tok : String → Nat` and `hashFn : String → Nat`.
* tree-sitter trees are modelled by the inductive `TSNode`; the Python
  `node.parent` pointers are modelled by threading the ancestor stack
  through the traversal, which visits each node with exactly its chain of
  ancestors.
-/

/-- The Python default whitespace set used by `str.strip()`. -/
def pyWsChars : List Char := [' ', '\t', '\n', '\r', '\x0b', '\x0c']

/-- Whether a character is Python whitespace. -/
def isPyWs (c : Char) : Bool := pyWsChars.contains c

/-- Python `not s.strip()`: the string is empty or all whitespace. -/
def isBlankStr (s : String) : Bool := s.data.all isPyWs

/-- Python `s.strip()` with no argument. -/
def pyStrip (s : String) : String :=
  String.mk (((s.data.dropWhile isPyWs).reverse.dropWhile isPyWs).reverse)

/-- Python `s.lstrip(chars)`: drop leading characters belonging to the
character set of `chars`. -/
def pyLstrip (chars : String) (s : String) : String :=
  String.mk (s.data.dropWhile (fun c => chars.data.contains c))

/-- Python `s.rstrip(chars)`: drop trailing characters belonging to the
character set of `chars`. -/
def pyRstrip (chars : String) (s : String) : String :=
  String.mk ((s.data.reverse.dropWhile (fun c => chars.data.contains c)).reverse)

/-- Character-level model of Python `s.split("\n")` on a character list:
always at least one (possibly empty) piece, a new piece after each newline. -/
def splitNlChars : List Char → List (List Char)
  | [] => [[]]
  | c :: rest =>
    let r := splitNlChars rest
    if c = '\n' then [] :: r
    else
      match r with
      | [] => [[c]]
      | h :: t => (c :: h) :: t

/-- Python `s.split("\n")`. -/
def lineSplit (s : String) : List String := (splitNlChars s.data).map String.mk

/-- Python `"\n".join(lines)`. -/
def joinNl : List String → String
  | [] => ""
  | [x] => x
  | x :: rest => x ++ "\n" ++ joinNl rest

/-- Python `s.splitlines()` restricted to `"\n"` separators: like
`s.split("\n")` but without a trailing empty piece. -/
def pySplitlines (s : String) : List String :=
  let parts := lineSplit s
  if parts.getLastD "" = "" then parts.dropLast else parts

/-- Python f-string rendering of an `Optional[str]`: `None` renders as the
text `"None"`. -/
def fmtOptStr : Option String → String
  | some s => s
  | none => "None"

/-- `CodeChunkType` from `code_chunk.py`. -/
inductive CodeChunkType : Type where
  | FUNCTION
  | METHOD
  | PREAMBLE
  | CLASS
  | CODE_BLOCK
deriving DecidableEq

/-- The fields of `CodeDocMeta` from `code_chunk.py` that the chunking
engine reads or writes (`doc_items` and `schema_name` carry no content
relevant to the claims and are omitted).  `origin` is an opaque
back-reference, modelled as an optional string. -/
structure CodeDocMeta : Type where
  part_name : Option String := none
  docstring : Option String := none
  sha256 : Option Nat := none
  start_line : Option Nat := none
  end_line : Option Nat := none
  end_line_signature : Option Nat := none
  origin : Option String := none
  chunk_type : CodeChunkType := CodeChunkType.CODE_BLOCK
deriving DecidableEq

/-- `CodeChunk` from `code_chunk.py`: text plus metadata. -/
structure CodeChunk : Type where
  text : String
  meta : CodeDocMeta
deriving DecidableEq

/-- Lexicographic order on byte-range pairs, the order used by Python
`sorted` on 2-tuples. -/
def lexLE (a b : Nat × Nat) : Prop := a.1 < b.1 ∨ (a.1 = b.1 ∧ a.2 ≤ b.2)

instance : DecidableRel lexLE := fun a b => by
  unfold lexLE; infer_instance

instance : IsTotal (Nat × Nat) lexLE := by
  constructor; intro a b; unfold lexLE; omega

instance : IsTrans (Nat × Nat) lexLE := by
  constructor; intro a b c; unfold lexLE; omega

/-- Python `sorted(self.used_ranges)`, modelled as an insertion sort by the
lexicographic order. -/
def sortRanges (l : List (Nat × Nat)) : List (Nat × Nat) := List.insertionSort lexLE l

/-- One step of the merge loop of `_RangeTracker.merge_ranges`.  The
accumulator holds the merged list in reverse, so its head is Python's
`merged[-1]`: a new range is pushed when `start > merged[-1][1]`, otherwise
`merged[-1]` is widened to `(merged[-1][0], max(merged[-1][1], end))`. -/
def mergeStep (acc : List (Nat × Nat)) (r : Nat × Nat) : List (Nat × Nat) :=
  match acc with
  | [] => [r]
  | (ms, me) :: rest => if me < r.1 then r :: (ms, me) :: rest else (ms, max me r.2) :: rest

/-- `_RangeTracker.merge_ranges`: sort the used ranges and coalesce
overlapping or touching ones. -/
def merge_ranges (used : List (Nat × Nat)) : List (Nat × Nat) :=
  if used = [] then [] else ((sortRanges used).foldl mergeStep []).reverse

/-- One step of the gap walk of `_RangeTracker.find_gaps`: the accumulator
is `(gaps, last_end)`; a gap `(last_end, start)` is emitted when
`last_end < start`, and `last_end` becomes the range's end. -/
def gapStep (acc : List (Nat × Nat) × Nat) (r : Nat × Nat) : List (Nat × Nat) × Nat :=
  ((if acc.2 < r.1 then acc.1 ++ [(acc.2, r.1)] else acc.1), r.2)

/-- `_RangeTracker.find_gaps`: walk the merged ranges keeping `last_end`,
emitting a gap before each range that starts past `last_end`, and a final
gap up to `total_length`. -/
def find_gaps (used : List (Nat × Nat)) (total_length : Nat) : List (Nat × Nat) :=
  let merged := merge_ranges used
  let st := merged.foldl gapStep ([], 0)
  st.1 ++ (if st.2 < total_length then [(st.2, total_length)] else [])

/-- Proof vehicle: the merge loop as a recursion on the sorted list.  It is
proved below to agree with `merge_ranges` on sorted input. -/
def mergeSortedRec : List (Nat × Nat) → List (Nat × Nat)
  | [] => []
  | [r] => [r]
  | (s1, e1) :: (s2, e2) :: rest =>
    if e1 < s2 then (s1, e1) :: mergeSortedRec ((s2, e2) :: rest)
    else mergeSortedRec ((s1, max e1 e2) :: rest)
termination_by l => l.length

/-- Proof vehicle: the gap walk as a recursion, carrying `last_end`.  It is
proved below to agree with `find_gaps`. -/
def walkGaps (lastEnd : Nat) (l : List (Nat × Nat)) (total : Nat) : List (Nat × Nat) :=
  match l with
  | [] => if lastEnd < total then [(lastEnd, total)] else []
  | (s, e) :: rest => (if lastEnd < s then [(lastEnd, s)] else []) ++ walkGaps e rest total

/-- A point is covered by a list of half-open ranges. -/
def coveredBy (l : List (Nat × Nat)) (x : Nat) : Prop := ∃ r ∈ l, r.1 ≤ x ∧ x < r.2

/-- Ranges ordered by start offset. -/
def startLE (a b : Nat × Nat) : Prop := a.1 ≤ b.1

/-- Strict separation: the first range ends before the second starts. -/
def sepLT (a b : Nat × Nat) : Prop := a.2 < b.1

/-- Every range is well-formed and ends within `total`. -/
def ValidRangesTo (total : Nat) (l : List (Nat × Nat)) : Prop :=
  ∀ r ∈ l, r.1 ≤ r.2 ∧ r.2 ≤ total

/-- First stage of `_ChunkSizeProcessor._split_function_chunk`: find the
signature line (first line whose `strip()` is non-empty) and the body lines
after it, dropping a final body line that is just a closing brace; `none`
when the code takes one of its early-return paths (no non-blank line, or no
body lines). -/
def sigAndBody (text : String) : Option (String × List String) :=
  let lines := lineSplit text
  match lines.findIdx? (fun l => !(isBlankStr l)) with
  | none => none
  | some i =>
    let body := lines.drop (i + 1)
    if body.isEmpty then none
    else some (lines.getD i "",
      if pyStrip (body.getLastD "") = "\x7d" then body.dropLast else body)

/-- The accumulation loop of `_split_function_chunk`: gather body lines into
buffers that always start with `signature_line + chunk_prefix`; close the
current buffer (appending `chunk_suffix`) whenever adding the next line
would pass `max_tokens` and the buffer already holds more than the
signature. -/
def funcStep (tok : String → Nat) (maxT : Nat) (sig pre suf : String)
    (st : List String × List String × Nat) (line : String) : List String × List String × Nat :=
  match st with
  | (cs, cur, size) =>
    let lt := tok line
    if maxT < size + lt ∧ 1 < cur.length then
      (cs ++ [String.join cur ++ suf], [sig ++ pre, line], lt)
    else (cs, cur ++ [line], size + lt)

/-- The accumulation loop of `_split_function_chunk` (body; one iteration is
`funcStep`). -/
def accumPieces (tok : String → Nat) (maxT : Nat) (sig pre suf : String)
    (body : List String) : List String :=
  let st := body.foldl (funcStep tok maxT sig pre suf) ([], [sig ++ pre], 0)
  match st with
  | (cs, cur, _) => if cur.isEmpty then cs else cs ++ [String.join cur ++ suf]

/-- The undersized-final-piece step of `_split_function_chunk`: when more
than one piece accumulated and the last one counts below `min_chunk_size`,
replace the two final pieces by
`prev.rstrip(chunk_suffix) + "\n" + last.lstrip(signature_line + chunk_prefix)`
(Python character-set strips). -/
def mergeLastSmall (tok : String → Nat) (minCS : Nat) (sig pre suf : String)
    (cs : List String) : List String :=
  match cs.reverse with
  | last :: prev :: rest =>
    if tok last < minCS then
      ((pyRstrip suf prev ++ "\n" ++ pyLstrip (sig ++ pre) last) :: rest).reverse
    else cs
  | _ => cs

/-- Final loop of `_split_function_chunk`: skip blank piece texts; copy the
original metadata, suffixing `part_name` with `_part_{i+1}` only when more
than one piece exists. -/
def renderPieces (ch : CodeChunk) (cs : List String) : List CodeChunk :=
  cs.enum.filterMap (fun p =>
    if isBlankStr p.2 then none
    else
      let newName :=
        if 1 < cs.length then
          some (fmtOptStr ch.meta.part_name ++ "_part_" ++ toString (p.1 + 1))
        else ch.meta.part_name
      some { text := p.2, meta := { ch.meta with part_name := newName } })

/-- `_ChunkSizeProcessor._split_function_chunk`. -/
def split_function_chunk (tok : String → Nat) (maxT minCS : Nat) (pre suf : String)
    (ch : CodeChunk) : List CodeChunk :=
  match sigAndBody ch.text with
  | none => [ch]
  | some (sig, body) =>
    renderPieces ch (mergeLastSmall tok minCS sig pre suf (accumPieces tok maxT sig pre suf body))

/-- `_ChunkSizeProcessor._create_split_chunk`: copy the metadata, always
suffixing `part_name` with `_part_{chunk_number}`. -/
def create_split_chunk (ch : CodeChunk) (text : String) (chunkNumber : Nat) : CodeChunk :=
  let newName := some (fmtOptStr ch.meta.part_name ++ "_part_" ++ toString chunkNumber)
  { text := text, meta := { ch.meta with part_name := newName } }

/-- `_ChunkSizeProcessor._split_generic_chunk`: bin-pack lines under
`max_tokens`, emitting a closed block only when its own token count is at
least `min_chunk_size`. -/
def genericStep (tok : String → Nat) (maxT minCS : Nat) (ch : CodeChunk)
    (st : List CodeChunk × List String × Nat × Nat) (line : String) :
    List CodeChunk × List String × Nat × Nat :=
  match st with
  | (out, cur, size, num) =>
    let lt := tok line
    if maxT < size + lt ∧ ¬ cur.isEmpty then
      let ct := joinNl cur
      if minCS ≤ tok ct then
        (out ++ [create_split_chunk ch ct num], [line], lt, num + 1)
      else (out, [line], lt, num)
    else (out, cur ++ [line], size + lt, num)

/-- `_ChunkSizeProcessor._split_generic_chunk` (body; one iteration is
`genericStep`). -/
def split_generic_chunk (tok : String → Nat) (maxT minCS : Nat) (ch : CodeChunk) :
    List CodeChunk :=
  let lines := lineSplit ch.text
  let st := lines.foldl (genericStep tok maxT minCS ch) ([], [], 0, 1)
  match st with
  | (out, cur, _, num) =>
    if ¬ cur.isEmpty then
      let ct := joinNl cur
      if minCS ≤ tok ct then out ++ [create_split_chunk ch ct num] else out
    else out

/-- `_ChunkSizeProcessor._split_large_chunk`: function or method chunks use
the signature-repeating splitter, all other kinds the generic splitter. -/
def split_large_chunk (tok : String → Nat) (maxT minCS : Nat) (pre suf : String)
    (ch : CodeChunk) : List CodeChunk :=
  if ch.meta.chunk_type = CodeChunkType.FUNCTION ∨ ch.meta.chunk_type = CodeChunkType.METHOD
  then split_function_chunk tok maxT minCS pre suf ch
  else split_generic_chunk tok maxT minCS ch

/-- `_ChunkSizeProcessor.process_chunks`: chunks whose token count is at
most `max_tokens` pass through unchanged with their ranges; larger chunks
are split, each piece paired with the original ranges. -/
def process_chunks (tok : String → Nat) (maxT minCS : Nat) (pre suf : String)
    (l : List (CodeChunk × List (Nat × Nat))) : List (CodeChunk × List (Nat × Nat)) :=
  (l.map (fun cr =>
    if tok cr.1.text ≤ maxT then [cr]
    else (split_large_chunk tok maxT minCS pre suf cr.1).map (fun c => (c, cr.2)))).flatten

/-- The language tags relevant to the strategy's dispatch table
`_INNER_CHUNKERS_BY_LANG`; `RUST` and `UNKNOWN` stand for tags that are
absent from the table. -/
inductive CodeLanguageLabel : Type where
  | PYTHON
  | TYPESCRIPT
  | JAVASCRIPT
  | C
  | JAVA
  | RUST
  | UNKNOWN
deriving DecidableEq

/-- Whether `_INNER_CHUNKERS_BY_LANG` holds a chunker for the tag. -/
def innerChunkerAvailable : CodeLanguageLabel → Bool
  | .PYTHON => true
  | .TYPESCRIPT => true
  | .JAVASCRIPT => true
  | .C => true
  | .JAVA => true
  | _ => false

/-- `StandardCodeChunkingStrategy.chunk_code_item`: return nothing when the
text strips to empty; delegate to the language chunker (abstracted as
`innerChunk`) when one exists; otherwise fall back to a single CODE_BLOCK
chunk holding the verbatim text. -/
def chunk_code_item (hashFn : String → Nat) (origin : Option String)
    (lang : CodeLanguageLabel) (innerChunk : String → List CodeChunk)
    (code_text : String) : List CodeChunk :=
  if isBlankStr code_text then []
  else if innerChunkerAvailable lang then innerChunk code_text
  else
    [{ text := code_text
       meta :=
        { part_name := none
          docstring := none
          sha256 := some (hashFn code_text)
          start_line := some 1
          end_line := some (pySplitlines code_text).length
          end_line_signature := none
          origin := origin
          chunk_type := CodeChunkType.CODE_BLOCK } }]

/-- A tree-sitter node: type name, field label under its parent, source
text, byte span, children. -/
inductive TSNode : Type where
  | mk (ty : String) (fld : Option String) (txt : String)
       (startByte endByte : Nat) (children : List TSNode)

/-- Node type name. -/
def TSNode.ty : TSNode → String
  | .mk t _ _ _ _ _ => t

/-- Field label of the edge from the parent to this node. -/
def TSNode.fld : TSNode → Option String
  | .mk _ f _ _ _ _ => f

/-- Source text of the node. -/
def TSNode.txt : TSNode → String
  | .mk _ _ x _ _ _ => x

/-- Start byte of the node span. -/
def TSNode.startByte : TSNode → Nat
  | .mk _ _ _ s _ _ => s

/-- End byte of the node span. -/
def TSNode.endByte : TSNode → Nat
  | .mk _ _ _ _ e _ => e

/-- Children of the node. -/
def TSNode.children : TSNode → List TSNode
  | .mk _ _ _ _ _ cs => cs

mutual
/-- Structural decidable equality for `TSNode`. -/
def TSNode.deq (a b : TSNode) : Decidable (a = b) :=
  match a, b with
  | .mk t1 f1 x1 s1 e1 c1, .mk t2 f2 x2 s2 e2 c2 =>
    match decEq t1 t2, decEq f1 f2, decEq x1 x2, decEq s1 s2, decEq e1 e2,
          TSNode.deqList c1 c2 with
    | isTrue h1, isTrue h2, isTrue h3, isTrue h4, isTrue h5, isTrue h6 =>
      isTrue (by subst h1 h2 h3 h4 h5 h6; rfl)
    | isFalse h, _, _, _, _, _ => isFalse (by intro hc; injection hc; contradiction)
    | _, isFalse h, _, _, _, _ => isFalse (by intro hc; injection hc; contradiction)
    | _, _, isFalse h, _, _, _ => isFalse (by intro hc; injection hc; contradiction)
    | _, _, _, isFalse h, _, _ => isFalse (by intro hc; injection hc; contradiction)
    | _, _, _, _, isFalse h, _ => isFalse (by intro hc; injection hc; contradiction)
    | _, _, _, _, _, isFalse h => isFalse (by intro hc; injection hc; contradiction)
/-- Structural decidable equality for `TSNode` lists. -/
def TSNode.deqList (a b : List TSNode) : Decidable (a = b) :=
  match a, b with
  | [], [] => isTrue rfl
  | [], _ :: _ => isFalse (fun hc => List.noConfusion hc)
  | _ :: _, [] => isFalse (fun hc => List.noConfusion hc)
  | x :: xs, y :: ys =>
    match TSNode.deq x y, TSNode.deqList xs ys with
    | isTrue h1, isTrue h2 => isTrue (by subst h1 h2; rfl)
    | isFalse h, _ => isFalse (by intro hc; injection hc; contradiction)
    | _, isFalse h => isFalse (by intro hc; injection hc; contradiction)
end

instance : DecidableEq TSNode := TSNode.deq

/-- tree-sitter `node.child_by_field_name(f)`: the first child whose field
label is `f`. -/
def childByFieldName (n : TSNode) (f : String) : Option TSNode :=
  n.children.find? (fun c => c.fld = some f)

/-- The per-language configuration fields of `_CodeChunker` used by the
extractors under study (`_PythonFunctionChunker` instantiates them for
Python). -/
structure ChunkerCfg : Type where
  function_definition_types : List String
  class_definition_types : List String
  constructor_name : String
  class_body_field : String
  name_field : String
  isCLanguage : Bool

/-- The `_PythonFunctionChunker` configuration. -/
def pythonCfg : ChunkerCfg :=
  { function_definition_types := ["function_definition"]
    class_definition_types := ["class_definition"]
    constructor_name := "__init__"
    class_body_field := "body"
    name_field := "name"
    isCLanguage := false }

/-- `_utils._get_function_name`: for C read `declarator.declarator`,
otherwise the `name` field; empty text counts as no name. -/
def get_function_name (cfg : ChunkerCfg) (n : TSNode) : Option String :=
  if cfg.isCLanguage then
    match (childByFieldName n "declarator").bind (fun d => childByFieldName d "declarator") with
    | some inner => if inner.txt = "" then none else some inner.txt
    | none => none
  else
    match childByFieldName n "name" with
    | some nm => if nm.txt = "" then none else some nm.txt
    | none => none

/-- `_utils._is_collectable_function`: C functions always; otherwise a named
function whose name differs from the constructor name. -/
def is_collectable_function (cfg : ChunkerCfg) (n : TSNode) : Bool :=
  if cfg.isCLanguage then true
  else
    match get_function_name cfg n with
    | none => false
    | some name => name ≠ cfg.constructor_name

/-- `_CodeChunker._is_constructor`: a function-typed node whose `name` field
has non-empty text equal to the constructor name. -/
def is_constructor (cfg : ChunkerCfg) (n : TSNode) : Bool :=
  match childByFieldName n cfg.name_field with
  | none => false
  | some nm =>
    if nm.txt = "" then false
    else decide (n.ty ∈ cfg.function_definition_types) && (nm.txt == cfg.constructor_name)

/-- `_CodeChunker._is_only_function_in_class`: walk up (here: along the
ancestor stack) to the nearest class node; in its body field, count the
function-typed children other than the constructor; true when none. -/
def is_only_function_in_class (cfg : ChunkerCfg) (ctor : TSNode)
    (ancestors : List TSNode) : Bool :=
  match ancestors.find? (fun a => decide (a.ty ∈ cfg.class_definition_types)) with
  | none => false
  | some cls =>
    match childByFieldName cls cfg.class_body_field with
    | none => false
    | some body =>
      (body.children.filter
        (fun c => decide (c.ty ∈ cfg.function_definition_types) && !(decide (c = ctor)))).length = 0

mutual
/-- `_CodeChunker._get_all_functions`: stop below a function-typed parent;
collect a function-typed node when it is collectable, or when it is the
constructor and the only function in its class; recurse into children. -/
def get_all_functions (cfg : ChunkerCfg) (n : TSNode) (parentType : String)
    (ancestors : List TSNode) : List TSNode :=
  match n with
  | .mk ty fl tx sb eb cs =>
    if parentType ∈ cfg.function_definition_types then []
    else
      (if ty ∈ cfg.function_definition_types then
        (if is_collectable_function cfg (.mk ty fl tx sb eb cs) then [TSNode.mk ty fl tx sb eb cs]
         else if is_constructor cfg (.mk ty fl tx sb eb cs) then
           (if is_only_function_in_class cfg (.mk ty fl tx sb eb cs) ancestors then
             [TSNode.mk ty fl tx sb eb cs]
            else [])
         else [])
       else [])
      ++ get_all_functions_list cfg cs ty (TSNode.mk ty fl tx sb eb cs :: ancestors)
/-- The `for child in node.children` loop of `_get_all_functions`. -/
def get_all_functions_list (cfg : ChunkerCfg) (cs : List TSNode) (parentType : String)
    (ancestors : List TSNode) : List TSNode :=
  match cs with
  | [] => []
  | c :: rest =>
    get_all_functions cfg c parentType ancestors
    ++ get_all_functions_list cfg rest parentType ancestors
end

/-- The `has_methods` helper of `_CodeChunker._get_classes_no_methods`: a
function-typed child or grandchild exists. -/
def has_methods (cfg : ChunkerCfg) (classNode : TSNode) : Bool :=
  classNode.children.any (fun child =>
    decide (child.ty ∈ cfg.function_definition_types)
    || child.children.any (fun g => decide (g.ty ∈ cfg.function_definition_types)))

mutual
/-- `_CodeChunker._get_classes_no_methods`: stop below a class-typed parent;
collect class-typed nodes without methods; recurse into children. -/
def get_classes_no_methods (cfg : ChunkerCfg) (n : TSNode) (parentType : String) :
    List TSNode :=
  match n with
  | .mk ty fl tx sb eb cs =>
    if parentType ∈ cfg.class_definition_types then []
    else
      (if ty ∈ cfg.class_definition_types ∧ ¬ (has_methods cfg (.mk ty fl tx sb eb cs) = true)
       then [TSNode.mk ty fl tx sb eb cs] else [])
      ++ get_classes_no_methods_list cfg cs ty
/-- The `for child in node.children` loop of `_get_classes_no_methods`. -/
def get_classes_no_methods_list (cfg : ChunkerCfg) (cs : List TSNode)
    (parentType : String) : List TSNode :=
  match cs with
  | [] => []
  | c :: rest =>
    get_classes_no_methods cfg c parentType ++ get_classes_no_methods_list cfg rest parentType
end

/-- The emission order of `_CodeChunker.chunk`: all function chunks (in
traversal order), then all no-method class chunks (in traversal order),
then the preamble chunk when the orphan collector produced one.  Chunk
contents are abstracted to (kind, source node); the preamble spans the file
and is tagged with the root. -/
def chunkEmitOrder (cfg : ChunkerCfg) (root : TSNode) (hasPreamble : Bool) :
    List (CodeChunkType × TSNode) :=
  (get_all_functions cfg root "" []).map (fun n => (CodeChunkType.FUNCTION, n))
  ++ (get_classes_no_methods cfg root "").map (fun n => (CodeChunkType.CLASS, n))
  ++ (if hasPreamble then [(CodeChunkType.PREAMBLE, root)] else [])

mutual
/-- No node in the subtree has a type from `tys`. -/
def freeOfTypes (tys : List String) (n : TSNode) : Bool :=
  match n with
  | .mk ty _ _ _ _ cs => !(tys.contains ty) && freeOfTypesList tys cs
/-- `freeOfTypes` over a list of subtrees. -/
def freeOfTypesList (tys : List String) (cs : List TSNode) : Bool :=
  match cs with
  | [] => true
  | c :: rest => freeOfTypes tys c && freeOfTypesList tys rest
end

/-- Consecutive children occupy non-overlapping, left-to-right byte spans. -/
def spansChainB : List TSNode → Bool
  | [] => true
  | [_] => true
  | a :: b :: rest => (a.endByte ≤ b.startByte) && spansChainB (b :: rest)

mutual
/-- A well-positioned tree: each node has a consistent span containing the
ordered spans of its children, recursively. -/
def wellPosB (n : TSNode) : Bool :=
  match n with
  | .mk _ _ _ sb eb cs =>
    (sb ≤ eb)
    && spansChainB cs
    && cs.all (fun c => sb ≤ c.startByte && c.endByte ≤ eb)
    && wellPosList cs
/-- `wellPosB` over a list of subtrees. -/
def wellPosList (cs : List TSNode) : Bool :=
  match cs with
  | [] => true
  | c :: rest => wellPosB c && wellPosList rest
end

/-- Modelled from the spec: the emitted sequence "lists function and class
chunks in document (tree traversal) order of their source nodes" — the
source-node start bytes are nondecreasing along the sequence. -/
def docOrderedB : List (CodeChunkType × TSNode) → Bool
  | [] => true
  | [_] => true
  | a :: b :: rest => (a.2.startByte ≤ b.2.startByte) && docOrderedB (b :: rest)

/-- Drop `p` from the front of `l` when it is exactly a prefix, else keep
`l` unchanged. -/
def dropExactPrefixL (p l : List Char) : List Char :=
  if p.isPrefixOf l then l.drop p.length else l

/-- Modelled from the spec: the undersized final piece "merged it textually
into the previous piece", "with the closing token and the repeated
signature/opening prefix removed at the join" — the closing token removed
once from the end of the previous piece, the signature+opening prefix
removed once from the front of the final piece, joined by a newline. -/
def specMergeJoin (sig pre suf prev last : String) : String :=
  String.mk ((dropExactPrefixL suf.data.reverse prev.data.reverse).reverse)
  ++ "\n"
  ++ String.mk (dropExactPrefixL (sig ++ pre).data last.data)

/-- Metadata equality on everything except `part_name`. -/
def MetaSameExceptPartName (a b : CodeDocMeta) : Prop :=
  a.docstring = b.docstring ∧ a.sha256 = b.sha256 ∧ a.start_line = b.start_line
  ∧ a.end_line = b.end_line ∧ a.end_line_signature = b.end_line_signature
  ∧ a.origin = b.origin ∧ a.chunk_type = b.chunk_type

/-! ### Concrete example inputs used by witnesses and counterexamples -/

/-- A concrete tokenizer for examples: one token per character. -/
def charCountTok (s : String) : Nat := s.length

/-- A FUNCTION chunk whose single body line alone exceeds a small token
budget. -/
def exFuncChunkA : CodeChunk :=
  { text := "sig\nxxxxxxxx", meta := { chunk_type := CodeChunkType.FUNCTION } }

/-- A FUNCTION chunk whose split produces two pieces, the second one
undersized and starting with characters drawn from the signature. -/
def exFuncChunkB : CodeChunk :=
  { text := "ab\nxyz\nba9"
    meta := { part_name := some "f", chunk_type := CodeChunkType.FUNCTION } }

/-- A CLASS chunk of a single over-budget line, so that the generic
splitter emits exactly one piece. -/
def exClassChunk : CodeChunk :=
  { text := "aaaaaaa"
    meta := { part_name := some "p", chunk_type := CodeChunkType.CLASS } }

/-- Name node of the example constructor. -/
def exNameNode : TSNode := .mk "identifier" (some "name") "__init__" 10 18 []

/-- Parameter list of the example constructor. -/
def exInitParams : TSNode := .mk "parameters" (some "parameters") "(self)" 18 24 []

/-- Body block of the example constructor. -/
def exInitBlock : TSNode := .mk "block" (some "body") "pass" 30 34 []

/-- The example constructor `__init__`. -/
def exInitNode : TSNode :=
  .mk "function_definition" none "def __init__(self): pass" 6 34
    [exNameNode, exInitParams, exInitBlock]

/-- Name node of the example class. -/
def exClsNameNode : TSNode := .mk "identifier" (some "name") "A" 6 7 []

/-- Body block of the example class, holding only the constructor. -/
def exClassBody : TSNode := .mk "block" (some "body") "" 6 34 [exInitNode]

/-- The example class whose only function is `__init__`. -/
def exClassNode : TSNode :=
  .mk "class_definition" none "class A: ..." 0 34 [exClsNameNode, exClassBody]

/-- Module root for the constructor-only-class example. -/
def exModuleRoot : TSNode := .mk "module" none "" 0 34 [exClassNode]

/-- An empty class (no methods) positioned before a function in the
source: body holds only a pass statement. -/
def exEmptyClass : TSNode :=
  .mk "class_definition" none "class E: pass" 0 16
    [.mk "identifier" (some "name") "E" 6 7 [], .mk "block" (some "body") "pass" 9 16
      [.mk "pass_statement" none "pass" 12 16 []]]

/-- A collectable function positioned after the empty class. -/
def exLaterFunction : TSNode :=
  .mk "function_definition" none "def f(): pass" 18 31
    [.mk "identifier" (some "name") "f" 22 23 []]

/-- Module root with an empty class before a function, in document order. -/
def exOrderRoot : TSNode := .mk "module" none "" 0 31 [exEmptyClass, exLaterFunction]

/-! ## Range tracker: lemmas for claim C1 -/

/-- Unfolding `coveredBy` over a cons cell. -/
theorem coveredBy_cons {r : Nat × Nat} {l : List (Nat × Nat)} {x : Nat} :
    coveredBy (r :: l) x ↔ (r.1 ≤ x ∧ x < r.2) ∨ coveredBy l x := by
  unfold coveredBy
  constructor
  · rintro ⟨q, hq, h1, h2⟩
    rcases List.mem_cons.mp hq with h | h
    · subst h; exact Or.inl ⟨h1, h2⟩
    · exact Or.inr ⟨q, h, h1, h2⟩
  · rintro (⟨h1, h2⟩ | ⟨q, hq, h1, h2⟩)
    · exact ⟨r, List.mem_cons_self _ _, h1, h2⟩
    · exact ⟨q, List.mem_cons_of_mem _ hq, h1, h2⟩

/-- The empty list covers nothing. -/
theorem coveredBy_nil {x : Nat} : ¬ coveredBy [] x := by
  rintro ⟨q, hq, -, -⟩
  exact absurd hq (List.not_mem_nil q)

/-- Coverage only depends on the multiset of ranges. -/
theorem coveredBy_perm {l1 l2 : List (Nat × Nat)} (h : l1.Perm l2) (x : Nat) :
    coveredBy l1 x ↔ coveredBy l2 x := by
  unfold coveredBy
  constructor
  · rintro ⟨q, hq, h1, h2⟩; exact ⟨q, h.mem_iff.mp hq, h1, h2⟩
  · rintro ⟨q, hq, h1, h2⟩; exact ⟨q, h.mem_iff.mpr hq, h1, h2⟩

/-- The merge loop of `merge_ranges`, expressed over a reversed accumulator,
agrees with the recursion `mergeSortedRec`. -/
theorem foldl_mergeStep_reverse (l : List (Nat × Nat)) :
    ∀ (r0 : Nat × Nat) (acc : List (Nat × Nat)),
      (l.foldl mergeStep (r0 :: acc)).reverse = acc.reverse ++ mergeSortedRec (r0 :: l) := by
  induction l with
  | nil => intro r0 acc; simp [mergeSortedRec]
  | cons x xs ih =>
    intro r0 acc
    obtain ⟨s1, e1⟩ := r0
    obtain ⟨s2, e2⟩ := x
    by_cases h : e1 < s2
    · have hstep : mergeStep ((s1, e1) :: acc) (s2, e2) = (s2, e2) :: (s1, e1) :: acc := by
        simp [mergeStep, h]
      rw [List.foldl_cons, hstep, ih (s2, e2) ((s1, e1) :: acc)]
      simp [mergeSortedRec, h]
    · have hstep : mergeStep ((s1, e1) :: acc) (s2, e2) = (s1, max e1 e2) :: acc := by
        simp [mergeStep, h]
      rw [List.foldl_cons, hstep, ih (s1, max e1 e2) acc]
      simp [mergeSortedRec, h]

/-- `merge_ranges` computes `mergeSortedRec` of the sorted input. -/
theorem merge_ranges_eq_rec (used : List (Nat × Nat)) :
    merge_ranges used = mergeSortedRec (sortRanges used) := by
  unfold merge_ranges
  by_cases h : used = []
  · subst h; simp [sortRanges, List.insertionSort, mergeSortedRec]
  · rw [if_neg h]
    cases hs : sortRanges used with
    | nil =>
      exfalso
      have hperm : (sortRanges used).Perm used := List.perm_insertionSort lexLE used
      rw [hs] at hperm
      exact h (hperm.symm.eq_nil)
    | cons r0 rest =>
      rw [List.foldl_cons]
      have hstep : mergeStep [] r0 = [r0] := by simp [mergeStep]
      rw [hstep, foldl_mergeStep_reverse rest r0 []]
      simp

/-- The sorted used ranges are pairwise lexicographically ordered. -/
theorem sortRanges_pairwise (l : List (Nat × Nat)) : List.Pairwise lexLE (sortRanges l) :=
  List.sorted_insertionSort lexLE l

/-- The sorted used ranges have nondecreasing starts. -/
theorem sortRanges_pairwise_start (l : List (Nat × Nat)) :
    List.Pairwise startLE (sortRanges l) :=
  (sortRanges_pairwise l).imp (fun h => by unfold lexLE startLE at *; omega)

/-- Sorting preserves range validity. -/
theorem sortRanges_valid {total : Nat} {l : List (Nat × Nat)} (h : ValidRangesTo total l) :
    ValidRangesTo total (sortRanges l) :=
  fun r hr => h r ((List.perm_insertionSort lexLE l).mem_iff.mp hr)

/-- Sorting preserves coverage. -/
theorem sortRanges_cov (l : List (Nat × Nat)) (x : Nat) :
    coveredBy (sortRanges l) x ↔ coveredBy l x :=
  coveredBy_perm (List.perm_insertionSort lexLE l) x

/-- `mergeSortedRec` preserves range validity. -/
theorem mergeSortedRec_valid (total : Nat) :
    ∀ l, ValidRangesTo total l → ValidRangesTo total (mergeSortedRec l) := by
  intro l
  induction l using mergeSortedRec.induct with
  | case1 => intro h; simpa [mergeSortedRec] using h
  | case2 r => intro h; simpa [mergeSortedRec] using h
  | case3 s1 e1 s2 e2 rest h ih =>
    intro hv
    simp only [mergeSortedRec, if_pos h]
    intro r hr
    rcases List.mem_cons.mp hr with h1 | h1
    · subst h1; exact hv (s1, e1) (by simp)
    · exact ih (fun q hq => hv q (List.mem_cons_of_mem _ hq)) r h1
  | case4 s1 e1 s2 e2 rest h ih =>
    intro hv
    simp only [mergeSortedRec, if_neg h]
    apply ih
    intro r hr
    rcases List.mem_cons.mp hr with h1 | h1
    · subst h1
      have hv1 := hv (s1, e1) (by simp)
      have hv2 := hv (s2, e2) (by simp)
      simp at hv1 hv2 ⊢
      omega
    · exact hv r (List.mem_cons_of_mem _ (List.mem_cons_of_mem _ h1))

/-- `mergeSortedRec` preserves coverage on start-sorted input. -/
theorem mergeSortedRec_cov :
    ∀ l, List.Pairwise startLE l → ∀ x, (coveredBy (mergeSortedRec l) x ↔ coveredBy l x) := by
  intro l
  induction l using mergeSortedRec.induct with
  | case1 => intro _ x; simp [mergeSortedRec]
  | case2 r => intro _ x; simp [mergeSortedRec]
  | case3 s1 e1 s2 e2 rest h ih =>
    intro hp x
    simp only [mergeSortedRec, if_pos h]
    rw [coveredBy_cons, coveredBy_cons, ih hp.of_cons x]
  | case4 s1 e1 s2 e2 rest h ih =>
    intro hp x
    have h12 : s1 ≤ s2 := (List.pairwise_cons.mp hp).1 (s2, e2) (List.mem_cons_self _ _)
    have hp2 : List.Pairwise startLE ((s1, max e1 e2) :: rest) := by
      rw [List.pairwise_cons]
      refine ⟨fun b hb => ?_, hp.of_cons.of_cons⟩
      have := (List.pairwise_cons.mp hp).1 b (List.mem_cons_of_mem _ hb)
      exact this
    simp only [mergeSortedRec, if_neg h]
    rw [ih hp2 x, coveredBy_cons, coveredBy_cons, coveredBy_cons]
    constructor
    · rintro (⟨ha, hb⟩ | hc)
      · simp only at ha hb
        by_cases hx : x < e1
        · exact Or.inl ⟨ha, hx⟩
        · exact Or.inr (Or.inl ⟨by omega, by omega⟩)
      · exact Or.inr (Or.inr hc)
    · rintro (⟨ha, hb⟩ | ⟨ha, hb⟩ | hc)
      · exact Or.inl ⟨ha, by simp; omega⟩
      · exact Or.inl ⟨by omega, by simp; omega⟩
      · exact Or.inr hc

/-- `mergeSortedRec` keeps the start of the first range and can only extend
its end. -/
theorem mergeSortedRec_head (s e : Nat) (rest : List (Nat × Nat)) :
    ∃ e2 tail, mergeSortedRec ((s, e) :: rest) = (s, e2) :: tail ∧ e ≤ e2 := by
  induction rest generalizing e with
  | nil => exact ⟨e, [], by simp [mergeSortedRec], le_refl e⟩
  | cons r rest ih =>
    obtain ⟨s2, e2⟩ := r
    by_cases h : e < s2
    · exact ⟨e, mergeSortedRec ((s2, e2) :: rest), by simp [mergeSortedRec, h], le_refl e⟩
    · obtain ⟨e3, tail, heq, hle⟩ := ih (max e e2)
      exact ⟨e3, tail, by simp only [mergeSortedRec, if_neg h]; exact heq, by omega⟩

/-- The output of `mergeSortedRec` on start-sorted input is strictly
separated: each range ends before the next starts. -/
theorem mergeSortedRec_chain :
    ∀ l, List.Pairwise startLE l → List.Chain' sepLT (mergeSortedRec l) := by
  intro l
  induction l using mergeSortedRec.induct with
  | case1 => intro _; simp [mergeSortedRec]
  | case2 r => intro _; simp [mergeSortedRec]
  | case3 s1 e1 s2 e2 rest h ih =>
    intro hp
    simp only [mergeSortedRec, if_pos h]
    obtain ⟨e2', tail', heq, -⟩ := mergeSortedRec_head s2 e2 rest
    rw [heq]
    rw [List.chain'_cons]
    refine ⟨h, ?_⟩
    rw [← heq]
    exact ih hp.of_cons
  | case4 s1 e1 s2 e2 rest h ih =>
    intro hp
    have h12 : s1 ≤ s2 := (List.pairwise_cons.mp hp).1 (s2, e2) (List.mem_cons_self _ _)
    have hp2 : List.Pairwise startLE ((s1, max e1 e2) :: rest) := by
      rw [List.pairwise_cons]
      refine ⟨fun b hb => (List.pairwise_cons.mp hp).1 b (List.mem_cons_of_mem _ hb),
        hp.of_cons.of_cons⟩
    simp only [mergeSortedRec, if_neg h]
    exact ih hp2

/-- A strictly separated chain of well-formed ranges is pairwise strictly
separated. -/
theorem chain_sep_head :
    ∀ (tail : List (Nat × Nat)) (a : Nat × Nat), List.Chain' sepLT (a :: tail) →
      (∀ r ∈ tail, r.1 ≤ r.2) → ∀ b ∈ tail, sepLT a b := by
  intro tail
  induction tail with
  | nil => intro a _ _ b hb; exact absurd hb (List.not_mem_nil b)
  | cons c cs ih =>
    intro a hc hv b hb
    have h1 : sepLT a c := (List.chain'_cons.mp hc).1
    rcases List.mem_cons.mp hb with h | h
    · subst h; exact h1
    · have h2 := ih c (List.chain'_cons.mp hc).2 (fun r hr => hv r (List.mem_cons_of_mem _ hr)) b h
      have h3 : c.1 ≤ c.2 := hv c (List.mem_cons_self _ _)
      unfold sepLT at *
      omega

/-- A strictly separated chain of well-formed ranges is pairwise strictly
separated (full statement). -/
theorem chain_sep_pairwise :
    ∀ (l : List (Nat × Nat)), List.Chain' sepLT l → (∀ r ∈ l, r.1 ≤ r.2) →
      List.Pairwise sepLT l := by
  intro l
  induction l with
  | nil => intro _ _; exact List.Pairwise.nil
  | cons a tail ih =>
    intro hc hv
    rw [List.pairwise_cons]
    exact ⟨chain_sep_head tail a hc (fun r hr => hv r (List.mem_cons_of_mem _ hr)),
      ih hc.tail (fun r hr => hv r (List.mem_cons_of_mem _ hr))⟩

/-- The gap-walk loop of `find_gaps` agrees with the recursion `walkGaps`. -/
theorem foldl_gapStep_walk (total : Nat) :
    ∀ (l : List (Nat × Nat)) (gacc : List (Nat × Nat)) (le : Nat),
      (l.foldl gapStep (gacc, le)).1
        ++ (if (l.foldl gapStep (gacc, le)).2 < total
            then [((l.foldl gapStep (gacc, le)).2, total)] else [])
      = gacc ++ walkGaps le l total := by
  intro l
  induction l with
  | nil => intro gacc le; simp [walkGaps]
  | cons r rest ih =>
    intro gacc le
    obtain ⟨s, e⟩ := r
    by_cases h : le < s
    · have hstep : gapStep (gacc, le) (s, e) = (gacc ++ [(le, s)], e) := by
        simp [gapStep, h]
      rw [List.foldl_cons, hstep, ih (gacc ++ [(le, s)]) e]
      simp [walkGaps, h]
    · have hstep : gapStep (gacc, le) (s, e) = (gacc, e) := by
        simp [gapStep, h]
      rw [List.foldl_cons, hstep, ih gacc e]
      simp [walkGaps, h]

/-- `find_gaps` computes `walkGaps` over the merged ranges. -/
theorem find_gaps_eq_walk (used : List (Nat × Nat)) (total : Nat) :
    find_gaps used total = walkGaps 0 (merge_ranges used) total := by
  unfold find_gaps
  simpa using foldl_gapStep_walk total (merge_ranges used) [] 0

/-- Every gap produced by `walkGaps` starts at or after `lastEnd` and is a
well-formed range within `total`, for separated valid input ranges whose
starts lie at or after `lastEnd`. -/
theorem walkGaps_valid (total : Nat) :
    ∀ (l : List (Nat × Nat)) (le : Nat), ValidRangesTo total l →
      List.Pairwise sepLT l → (∀ r ∈ l, le ≤ r.1) →
      ∀ g ∈ walkGaps le l total, le ≤ g.1 ∧ g.1 ≤ g.2 ∧ g.2 ≤ total := by
  intro l
  induction l with
  | nil =>
    intro le _ _ _ g hg
    by_cases h : le < total
    · simp only [walkGaps, if_pos h, List.mem_singleton] at hg
      subst hg; exact ⟨le_refl le, le_of_lt h, le_refl total⟩
    · simp [walkGaps, if_neg h] at hg
  | cons r rest ih =>
    intro le hv hp hs g hg
    obtain ⟨s, e⟩ := r
    have hse : s ≤ e ∧ e ≤ total := hv (s, e) (List.mem_cons_self _ _)
    have hles : le ≤ s := hs (s, e) (List.mem_cons_self _ _)
    simp only [walkGaps, List.mem_append] at hg
    rcases hg with hg | hg
    · by_cases h : le < s
      · simp only [if_pos h, List.mem_singleton] at hg
        subst hg
        exact ⟨le_refl le, le_of_lt h, by omega⟩
      · simp [if_neg h] at hg
    · have hrec := ih e (fun q hq => hv q (List.mem_cons_of_mem _ hq))
        (List.pairwise_cons.mp hp).2
        (fun q hq => le_of_lt ((List.pairwise_cons.mp hp).1 q hq)) g hg
      exact ⟨by omega, hrec.2⟩

/-- On separated valid ranges, the gaps of `walkGaps` cover, within
`[lastEnd, total)`, exactly the points the ranges do not cover. -/
theorem walkGaps_cov (total : Nat) :
    ∀ (l : List (Nat × Nat)) (le : Nat), ValidRangesTo total l →
      List.Pairwise sepLT l → (∀ r ∈ l, le ≤ r.1) →
      ∀ x, le ≤ x → x < total →
      (coveredBy (walkGaps le l total) x ↔ ¬ coveredBy l x) := by
  intro l
  induction l with
  | nil =>
    intro le _ _ _ x hx1 hx2
    have h : le < total := lt_of_le_of_lt hx1 hx2
    simp only [walkGaps, if_pos h]
    rw [coveredBy_cons]
    constructor
    · intro _; exact coveredBy_nil
    · intro _; exact Or.inl ⟨hx1, hx2⟩
  | cons r rest ih =>
    intro le hv hp hs x hx1 hx2
    obtain ⟨s, e⟩ := r
    have hse : s ≤ e ∧ e ≤ total := hv (s, e) (List.mem_cons_self _ _)
    have hles : le ≤ s := hs (s, e) (List.mem_cons_self _ _)
    have hvrest : ValidRangesTo total rest := fun q hq => hv q (List.mem_cons_of_mem _ hq)
    have hprest : List.Pairwise sepLT rest := (List.pairwise_cons.mp hp).2
    have hsrest : ∀ q ∈ rest, e ≤ q.1 :=
      fun q hq => le_of_lt ((List.pairwise_cons.mp hp).1 q hq)
    rw [coveredBy_cons]
    simp only [walkGaps]
    by_cases hxe : e ≤ x
    · have hxs : ¬ (x < s) := by omega
      have hcovgap : ¬ coveredBy (if le < s then [(le, s)] else []) x := by
        by_cases h : le < s
        · simp only [if_pos h]
          rw [coveredBy_cons]
          rintro (⟨-, hlt⟩ | hnil)
          · exact hxs hlt
          · exact coveredBy_nil hnil
        · simp only [if_neg h]
          exact coveredBy_nil
      have hsplit : coveredBy ((if le < s then [(le, s)] else []) ++ walkGaps e rest total) x
          ↔ coveredBy (walkGaps e rest total) x := by
        unfold coveredBy
        constructor
        · rintro ⟨q, hq, h1, h2⟩
          rcases List.mem_append.mp hq with hq | hq
          · exact absurd ⟨q, hq, h1, h2⟩ hcovgap
          · exact ⟨q, hq, h1, h2⟩
        · rintro ⟨q, hq, h1, h2⟩
          exact ⟨q, List.mem_append.mpr (Or.inr hq), h1, h2⟩
      rw [hsplit, ih e hvrest hprest hsrest x hxe hx2]
      constructor
      · intro hnc hor
        rcases hor with ⟨-, hlt⟩ | hc
        · omega
        · exact hnc hc
      · intro hnc hc
        exact hnc (Or.inr hc)
    · have hnocand : ¬ coveredBy rest x := by
        rintro ⟨q, hq, h1, h2⟩
        have := hsrest q hq
        omega
      have hnorec : ¬ coveredBy (walkGaps e rest total) x := by
        rintro ⟨q, hq, h1, h2⟩
        have := walkGaps_valid total rest e hvrest hprest hsrest q hq
        omega
      constructor
      · rintro ⟨q, hq, h1, h2⟩ hor
        rcases List.mem_append.mp hq with hq | hq
        · by_cases h : le < s
          · simp only [if_pos h, List.mem_singleton] at hq
            subst hq
            simp only at h1 h2
            rcases hor with ⟨ha, -⟩ | hc
            · omega
            · exact hnocand hc
          · simp [if_neg h] at hq
        · exact hnorec ⟨q, hq, h1, h2⟩
      · intro hnc
        have hxs : x < s := by
          by_contra hge
          exact hnc (Or.inl ⟨by omega, by omega⟩)
        have hlts : le < s := by omega
        refine ⟨(le, s), List.mem_append.mpr (Or.inl ?_), by simpa using hx1, by simpa using hxs⟩
        simp [if_pos hlts]

/-- A pairwise separated list of valid ranges that covers exactly
`[0, total)` with `total > 0` is the single range `(0, total)`. -/
theorem canonical_single (M : List (Nat × Nat)) (total : Nat) (hpos : 0 < total)
    (hpw : List.Pairwise sepLT M) (hval : ValidRangesTo total M)
    (hcov : ∀ x, coveredBy M x ↔ x < total) : M = [(0, total)] := by
  cases M with
  | nil => exact absurd ((hcov 0).mpr hpos) coveredBy_nil
  | cons r rest =>
    obtain ⟨s0, e0⟩ := r
    have h0 : coveredBy ((s0, e0) :: rest) 0 := (hcov 0).mpr hpos
    have hhead : s0 = 0 ∧ 0 < e0 := by
      rcases coveredBy_cons.mp h0 with ⟨h1, h2⟩ | ⟨q, hq, h1, h2⟩
      · simp only at h1 h2; omega
      · exfalso
        have := (List.pairwise_cons.mp hpw).1 q hq
        unfold sepLT at this
        omega
    have he0top : e0 ≤ total := (hval (s0, e0) (List.mem_cons_self _ _)).2
    have he0 : e0 = total := by
      by_contra hne
      have hlt : e0 < total := by omega
      have hc := (hcov e0).mpr hlt
      rcases coveredBy_cons.mp hc with ⟨-, h2⟩ | ⟨q, hq, h1, h2⟩
      · simp only at h2; omega
      · have := (List.pairwise_cons.mp hpw).1 q hq
        unfold sepLT at this
        omega
    have hrest : rest = [] := by
      rw [List.eq_nil_iff_forall_not_mem]
      intro q hq
      have hsep := (List.pairwise_cons.mp hpw).1 q hq
      have hqv := hval q (List.mem_cons_of_mem _ hq)
      unfold sepLT at hsep
      simp only at hsep
      omega
    rw [hhead.1, he0, hrest]

/-- `merge_ranges` preserves coverage. -/
theorem merge_ranges_cov (l : List (Nat × Nat)) (x : Nat) :
    coveredBy (merge_ranges l) x ↔ coveredBy l x := by
  rw [merge_ranges_eq_rec, mergeSortedRec_cov _ (sortRanges_pairwise_start l) x,
    sortRanges_cov l x]

/-- `merge_ranges` preserves range validity. -/
theorem merge_ranges_valid {total : Nat} {l : List (Nat × Nat)}
    (h : ValidRangesTo total l) : ValidRangesTo total (merge_ranges l) := by
  rw [merge_ranges_eq_rec]
  exact mergeSortedRec_valid total _ (sortRanges_valid h)

/-- The output of `merge_ranges` is pairwise strictly separated on valid
input. -/
theorem merge_ranges_pairwise {total : Nat} {l : List (Nat × Nat)}
    (h : ValidRangesTo total l) : List.Pairwise sepLT (merge_ranges l) := by
  have hchain : List.Chain' sepLT (merge_ranges l) := by
    rw [merge_ranges_eq_rec]
    exact mergeSortedRec_chain _ (sortRanges_pairwise_start l)
  exact chain_sep_pairwise _ hchain (fun r hr => (merge_ranges_valid h r hr).1)

/-- Coverage of an appended list splits into the parts. -/
theorem coveredBy_append {l1 l2 : List (Nat × Nat)} {x : Nat} :
    coveredBy (l1 ++ l2) x ↔ coveredBy l1 x ∨ coveredBy l2 x := by
  unfold coveredBy
  constructor
  · rintro ⟨q, hq, h1, h2⟩
    rcases List.mem_append.mp hq with hq | hq
    · exact Or.inl ⟨q, hq, h1, h2⟩
    · exact Or.inr ⟨q, hq, h1, h2⟩
  · rintro (⟨q, hq, h1, h2⟩ | ⟨q, hq, h1, h2⟩)
    · exact ⟨q, List.mem_append.mpr (Or.inl hq), h1, h2⟩
    · exact ⟨q, List.mem_append.mpr (Or.inr hq), h1, h2⟩

/-- Claim C1 (amended): for every list of used byte ranges each contained in
`[0, total_length)` with `total_length` positive, merging the union of the
gaps computed by `find_gaps` and the used ranges yields exactly the single
range `(0, total_length)`: `merge_ranges` and `find_gaps` together
partition `[0, total_length)` with no overlap and no omission.  (At
`total_length = 0` the code returns the empty list instead, see the
counterexample.) -/
theorem c1_gaps_and_used_merge_to_single (used : List (Nat × Nat)) (total : Nat)
    (hval : ValidRangesTo total used) (hpos : 0 < total) :
    merge_ranges (find_gaps used total ++ used) = [(0, total)] := by
  have hmv : ValidRangesTo total (merge_ranges used) := merge_ranges_valid hval
  have hmp : List.Pairwise sepLT (merge_ranges used) := merge_ranges_pairwise hval
  have hms : ∀ r ∈ merge_ranges used, 0 ≤ r.1 := fun _ _ => Nat.zero_le _
  have hgv : ∀ g ∈ find_gaps used total, 0 ≤ g.1 ∧ g.1 ≤ g.2 ∧ g.2 ≤ total := by
    rw [find_gaps_eq_walk]
    exact walkGaps_valid total _ 0 hmv hmp hms
  have hLval : ValidRangesTo total (find_gaps used total ++ used) := by
    intro r hr
    rcases List.mem_append.mp hr with h | h
    · exact (hgv r h).2
    · exact hval r h
  have hLcov : ∀ x, coveredBy (find_gaps used total ++ used) x ↔ x < total := by
    intro x
    constructor
    · intro hc
      rcases coveredBy_append.mp hc with ⟨q, hq, -, h2⟩ | ⟨q, hq, -, h2⟩
      · have := (hgv q hq).2.2; omega
      · have := (hval q hq).2; omega
    · intro hx
      by_cases hc : coveredBy used x
      · exact coveredBy_append.mpr (Or.inr hc)
      · refine coveredBy_append.mpr (Or.inl ?_)
        rw [find_gaps_eq_walk]
        apply (walkGaps_cov total _ 0 hmv hmp hms x (Nat.zero_le x) hx).mpr
        intro hcm
        exact hc ((merge_ranges_cov used x).mp hcm)
  refine canonical_single _ total hpos (merge_ranges_pairwise hLval)
    (merge_ranges_valid hLval) ?_
  intro x
  rw [merge_ranges_cov]
  exact hLcov x

/-- Claim C1, witness: a concrete instance of the amended theorem with
`used = [(0,2),(5,7)]` and `total_length = 7`. -/
theorem c1_gaps_and_used_merge_to_single_witness :
    ValidRangesTo 7 [(0, 2), (5, 7)] ∧ 0 < 7 ∧
      merge_ranges (find_gaps [(0, 2), (5, 7)] 7 ++ [(0, 2), (5, 7)]) = [(0, 7)] :=
  ⟨by unfold ValidRangesTo; decide, by decide,
    c1_gaps_and_used_merge_to_single [(0, 2), (5, 7)] 7 (by unfold ValidRangesTo; decide)
      (by decide)⟩

/-- Claim C1, counterexample to the claim as stated: with no used ranges and
`total_length = 0` (every used range is vacuously contained in `[0, 0)`),
the merged union is `[]`, not the claimed `[(0, 0)]`. -/
theorem c1_counterexample :
    merge_ranges (find_gaps ([] : List (Nat × Nat)) 0 ++ []) ≠ [(0, 0)] := by
  decide

/-! ## Size processor pass-through: claim C2 -/

/-- Claim C2: a chunk whose token count is at most `max_tokens` passes
through `process_chunks` unchanged — the identical chunk with identical
text and metadata (and its ranges), in place in the stream. -/
theorem c2_small_chunk_passes_through (tok : String → Nat) (maxT minCS : Nat)
    (pre suf : String) (l1 l2 : List (CodeChunk × List (Nat × Nat)))
    (c : CodeChunk) (r : List (Nat × Nat)) (h : tok c.text ≤ maxT) :
    process_chunks tok maxT minCS pre suf (l1 ++ (c, r) :: l2)
      = process_chunks tok maxT minCS pre suf l1
        ++ (c, r) :: process_chunks tok maxT minCS pre suf l2 := by
  unfold process_chunks
  rw [List.map_append, List.map_cons, List.flatten_append, List.flatten_cons]
  simp [h]

/-- Claim C2, witness: a concrete small chunk is returned unchanged. -/
theorem c2_small_chunk_passes_through_witness :
    (fun s : String => s.length) "abc" ≤ 5 ∧
      process_chunks (fun s : String => s.length) 5 0 "" ""
        [({ text := "abc", meta := {} }, [(0, 3)])]
      = [({ text := "abc", meta := {} }, [(0, 3)])] := by
  refine ⟨by decide, ?_⟩
  have h := c2_small_chunk_passes_through (fun s : String => s.length) 5 0 "" "" [] []
    { text := "abc", meta := {} } [(0, 3)] (by decide)
  simpa using h

/-! ## Chunking facade fallback: claims C3 and C10 -/

/-- Claim C3 (amended): for every input text containing at least one
non-whitespace character whose language tag has no matching chunker,
`chunk_code_item` emits exactly one chunk, of kind CODE_BLOCK, whose text
equals the input verbatim, with `start_line = 1` and `end_line` the input's
line count; this is not an error condition.  (Whitespace-only input instead
produces no chunk at all, see the counterexample and claim C10.) -/
theorem c3_unsupported_language_fallback (hashFn : String → Nat)
    (origin : Option String) (lang : CodeLanguageLabel)
    (innerChunk : String → List CodeChunk) (code_text : String)
    (hblank : isBlankStr code_text = false)
    (hlang : innerChunkerAvailable lang = false) :
    chunk_code_item hashFn origin lang innerChunk code_text =
      [{ text := code_text
         meta :=
          { part_name := none
            docstring := none
            sha256 := some (hashFn code_text)
            start_line := some 1
            end_line := some (pySplitlines code_text).length
            end_line_signature := none
            origin := origin
            chunk_type := CodeChunkType.CODE_BLOCK } }] := by
  unfold chunk_code_item
  simp [hblank, hlang]

/-- Claim C3, witness: the fallback at a concrete unsupported-language
input of two lines. -/
theorem c3_unsupported_language_fallback_witness :
    isBlankStr "let x = 1;\nx" = false ∧ innerChunkerAvailable CodeLanguageLabel.RUST = false ∧
      chunk_code_item (fun s => s.length) (some "doc") CodeLanguageLabel.RUST
        (fun _ => []) "let x = 1;\nx" =
      [{ text := "let x = 1;\nx"
         meta :=
          { part_name := none
            docstring := none
            sha256 := some 12
            start_line := some 1
            end_line := some 2
            end_line_signature := none
            origin := some "doc"
            chunk_type := CodeChunkType.CODE_BLOCK } }] := by
  refine ⟨by decide, rfl, ?_⟩
  have h := c3_unsupported_language_fallback (fun s => s.length) (some "doc")
    CodeLanguageLabel.RUST (fun _ => []) "let x = 1;\nx" (by decide) rfl
  simpa using h

/-- Claim C3, counterexample to the claim as stated: a whitespace-only
input with an unsupported language tag yields zero chunks, not exactly
one. -/
theorem c3_counterexample :
    innerChunkerAvailable CodeLanguageLabel.RUST = false ∧
      (chunk_code_item (fun _ => 0) none CodeLanguageLabel.RUST (fun _ => []) " ").length = 0 :=
  ⟨rfl, rfl⟩

/-- Claim C10: for every input text that is empty or consists only of
whitespace, `chunk_code_item` yields no chunks at all, for every language
tag and every inner chunker alike — in particular no CODE_BLOCK fallback
chunk. -/
theorem c10_blank_input_yields_nothing (hashFn : String → Nat)
    (origin : Option String) (lang : CodeLanguageLabel)
    (innerChunk : String → List CodeChunk) (code_text : String)
    (h : isBlankStr code_text = true) :
    chunk_code_item hashFn origin lang innerChunk code_text = [] := by
  unfold chunk_code_item
  simp [h]

/-- Claim C10, witness: a whitespace-only input under a supported language
with a non-trivial inner chunker still yields nothing. -/
theorem c10_blank_input_yields_nothing_witness :
    isBlankStr " \n\t" = true ∧
      chunk_code_item (fun _ => 7) (some "doc") CodeLanguageLabel.PYTHON
        (fun s => [{ text := s, meta := {} }]) " \n\t" = [] :=
  ⟨by decide,
    c10_blank_input_yields_nothing (fun _ => 7) (some "doc") CodeLanguageLabel.PYTHON
      (fun s => [{ text := s, meta := {} }]) " \n\t" (by decide)⟩

/-! ## Generic splitter: claims C6 and C7 -/

/-- Any property granted to every block that passes the `min_chunk_size`
check is an invariant of the generic-splitter loop. -/
theorem split_generic_fold_pred (tok : String → Nat) (maxT minCS : Nat) (ch : CodeChunk)
    (P : CodeChunk → Prop)
    (hP : ∀ ct num, minCS ≤ tok ct → P (create_split_chunk ch ct num)) :
    ∀ (lines : List String) (st : List CodeChunk × List String × Nat × Nat),
      (∀ c ∈ st.1, P c) →
      ∀ c ∈ (lines.foldl (genericStep tok maxT minCS ch) st).1, P c := by
  intro lines
  induction lines with
  | nil => intro st h; exact h
  | cons line rest ih =>
    intro st h
    rw [List.foldl_cons]
    apply ih
    obtain ⟨out, cur, size, num⟩ := st
    intro c hc
    unfold genericStep at hc
    dsimp only at hc
    split at hc
    · split at hc
      · rcases List.mem_append.mp hc with hm | hm
        · exact h c hm
        · rw [List.mem_singleton] at hm
          subst hm
          exact hP _ _ (by assumption)
      · exact h c hc
    · exact h c hc

/-- Every chunk emitted by `split_generic_chunk` arises from a block that
passed the `min_chunk_size` check. -/
theorem split_generic_mem (tok : String → Nat) (maxT minCS : Nat) (ch : CodeChunk)
    (P : CodeChunk → Prop)
    (hP : ∀ ct num, minCS ≤ tok ct → P (create_split_chunk ch ct num)) :
    ∀ c ∈ split_generic_chunk tok maxT minCS ch, P c := by
  intro c hc
  unfold split_generic_chunk at hc
  dsimp only at hc
  rcases hfold : (lineSplit ch.text).foldl (genericStep tok maxT minCS ch) ([], [], 0, 1)
    with ⟨out, cur, size, num⟩
  rw [hfold] at hc
  dsimp only at hc
  have hout : ∀ q ∈ out, P q := by
    have h0 : ∀ q ∈ (([], [], 0, 1) : List CodeChunk × List String × Nat × Nat).1, P q := by
      intro q hq
      exact absurd hq (List.not_mem_nil q)
    have hres := split_generic_fold_pred tok maxT minCS ch P hP (lineSplit ch.text)
      ([], [], 0, 1) h0
    rw [hfold] at hres
    exact hres
  split at hc
  · split at hc
    · rcases List.mem_append.mp hc with hm | hm
      · exact hout c hm
      · rw [List.mem_singleton] at hm
        subst hm
        exact hP _ _ (by assumption)
    · exact hout c hc
  · exact hout c hc

/-- Claim C6: the generic splitter emits a block as a chunk only if that
block's own token count is at least `min_chunk_size`; every emitted chunk
counts at least `min_chunk_size` tokens, so an undersized trailing block is
dropped and its content appears in no output chunk. -/
theorem c6_generic_split_respects_min_chunk_size (tok : String → Nat) (maxT minCS : Nat)
    (ch : CodeChunk) (c : CodeChunk) (hc : c ∈ split_generic_chunk tok maxT minCS ch) :
    minCS ≤ tok c.text :=
  split_generic_mem tok maxT minCS ch (fun q => minCS ≤ tok q.text)
    (fun ct num h => by simpa [create_split_chunk] using h) c hc

/-- Claim C6, witness: the single emitted piece of a concrete generic split
counts at least the minimum. -/
theorem c6_generic_split_respects_min_chunk_size_witness :
    3 ≤ charCountTok (create_split_chunk exClassChunk "aaaaaaa" 1).text :=
  c6_generic_split_respects_min_chunk_size charCountTok 5 3 exClassChunk
    (create_split_chunk exClassChunk "aaaaaaa" 1) (by decide)

/-- Metadata equality modulo `part_name` is reflexive. -/
theorem metaSame_refl (m : CodeDocMeta) : MetaSameExceptPartName m m :=
  ⟨rfl, rfl, rfl, rfl, rfl, rfl, rfl⟩

/-- Every chunk produced by `renderPieces` keeps the original metadata
except `part_name`, which is suffixed `_part_{i+1}` when more than one
piece exists and kept unchanged otherwise. -/
theorem renderPieces_mem (ch : CodeChunk) (cs : List String) :
    ∀ c ∈ renderPieces ch cs,
      MetaSameExceptPartName c.meta ch.meta ∧
        ((1 < cs.length ∧
            ∃ n : Nat, c.meta.part_name = some (fmtOptStr ch.meta.part_name ++ "_part_" ++ toString n))
          ∨ (¬ 1 < cs.length ∧ c.meta.part_name = ch.meta.part_name)) := by
  intro c hc
  unfold renderPieces at hc
  rw [List.mem_filterMap] at hc
  obtain ⟨p, hp, hpc⟩ := hc
  dsimp only at hpc
  by_cases hb : isBlankStr p.2
  · rw [if_pos hb] at hpc
    exact absurd hpc (by simp)
  · rw [if_neg hb] at hpc
    rw [Option.some_inj] at hpc
    subst hpc
    by_cases hlen : 1 < cs.length
    · refine ⟨⟨rfl, rfl, rfl, rfl, rfl, rfl, rfl⟩, Or.inl ⟨hlen, p.1 + 1, ?_⟩⟩
      simp [hlen]
    · refine ⟨⟨rfl, rfl, rfl, rfl, rfl, rfl, rfl⟩, Or.inr ⟨hlen, ?_⟩⟩
      simp [hlen]

/-- Claim C7 (amended): every chunk emitted by the splitting paths keeps
all metadata except `part_name`.  In the function path, `part_name` is kept
unchanged when a single piece results and suffixed `_part_{n}` when more
than one piece exists; in the generic path, `part_name` is always suffixed
`_part_{n}`, even when only one piece is emitted. -/
theorem c7_split_metadata (tok : String → Nat) (maxT minCS : Nat) (pre suf : String)
    (ch : CodeChunk) :
    (∀ c ∈ split_function_chunk tok maxT minCS pre suf ch,
        MetaSameExceptPartName c.meta ch.meta ∧
          (c.meta.part_name = ch.meta.part_name ∨
            ∃ n : Nat, c.meta.part_name = some (fmtOptStr ch.meta.part_name ++ "_part_" ++ toString n)))
    ∧ (∀ sig body, sigAndBody ch.text = some (sig, body) →
        ∀ c ∈ split_function_chunk tok maxT minCS pre suf ch,
          (¬ 1 < (mergeLastSmall tok minCS sig pre suf
              (accumPieces tok maxT sig pre suf body)).length →
            c.meta.part_name = ch.meta.part_name)
          ∧ (1 < (mergeLastSmall tok minCS sig pre suf
              (accumPieces tok maxT sig pre suf body)).length →
            ∃ n : Nat, c.meta.part_name = some (fmtOptStr ch.meta.part_name ++ "_part_" ++ toString n)))
    ∧ (∀ c ∈ split_generic_chunk tok maxT minCS ch,
        MetaSameExceptPartName c.meta ch.meta ∧
          ∃ n : Nat, c.meta.part_name = some (fmtOptStr ch.meta.part_name ++ "_part_" ++ toString n)) := by
  refine ⟨?_, ?_, ?_⟩
  · intro c hc
    unfold split_function_chunk at hc
    rcases hsb : sigAndBody ch.text with - | ⟨sig, body⟩
    · rw [hsb] at hc
      rw [List.mem_singleton] at hc
      subst hc
      exact ⟨metaSame_refl _, Or.inl rfl⟩
    · rw [hsb] at hc
      have := renderPieces_mem ch _ c hc
      rcases this with ⟨hms, ⟨-, n, hn⟩ | ⟨-, hn⟩⟩
      · exact ⟨hms, Or.inr ⟨n, hn⟩⟩
      · exact ⟨hms, Or.inl hn⟩
  · intro sig body hsb c hc
    unfold split_function_chunk at hc
    rw [hsb] at hc
    have := renderPieces_mem ch _ c hc
    rcases this with ⟨-, ⟨hlen, n, hn⟩ | ⟨hlen, hn⟩⟩
    · exact ⟨fun h => absurd hlen h, fun _ => ⟨n, hn⟩⟩
    · exact ⟨fun _ => hn, fun h => absurd h hlen⟩
  · intro c hc
    refine split_generic_mem tok maxT minCS ch
      (fun q => MetaSameExceptPartName q.meta ch.meta ∧
        ∃ n : Nat, q.meta.part_name =
          some (fmtOptStr ch.meta.part_name ++ "_part_" ++ toString n)) ?_ c hc
    intro ct num _
    exact ⟨⟨rfl, rfl, rfl, rfl, rfl, rfl, rfl⟩, num, rfl⟩

/-- Claim C7, witness: the generic path at a concrete input preserves all
metadata except `part_name` and suffixes `_part_{n}`. -/
theorem c7_split_metadata_witness :
    MetaSameExceptPartName (create_split_chunk exClassChunk "aaaaaaa" 1).meta
      exClassChunk.meta ∧
    ∃ n : Nat, (create_split_chunk exClassChunk "aaaaaaa" 1).meta.part_name =
      some (fmtOptStr exClassChunk.meta.part_name ++ "_part_" ++ toString n) :=
  (c7_split_metadata charCountTok 5 3 ":" "" exClassChunk).2.2
    (create_split_chunk exClassChunk "aaaaaaa" 1) (by decide)

/-- Claim C7, counterexample to the claim as stated: the generic path over
an over-budget CLASS chunk emits a single piece whose `part_name` is
`p_part_1`, not the original `p`. -/
theorem c7_counterexample :
    5 < charCountTok exClassChunk.text ∧
    (process_chunks charCountTok 5 3 ":" "" [(exClassChunk, [])]).length = 1 ∧
    (process_chunks charCountTok 5 3 ":" "" [(exClassChunk, [])]).map
      (fun cr => cr.1.meta.part_name) = [some "p_part_1"] ∧
    some "p_part_1" ≠ exClassChunk.meta.part_name := by
  refine ⟨by decide, rfl, rfl, by decide⟩

/-! ## Function splitter: claims C4 and C5 -/

/-- Folding string concatenation from any seed. -/
theorem string_foldl_append_data (l : List String) :
    ∀ s : String,
      (l.foldl (fun r t => r ++ t) s).data
        = s.data ++ (l.foldl (fun r t => r ++ t) "").data := by
  induction l with
  | nil => intro s; simp
  | cons a l ih =>
    intro s
    rw [List.foldl_cons, List.foldl_cons, ih (s ++ a), ih ("" ++ a)]
    have h0 : ("" : String).data = [] := rfl
    simp [String.data_append, h0]

/-- `String.join` over a cons cell, at the character level. -/
theorem string_join_cons_data (a : String) (l : List String) :
    (String.join (a :: l)).data = a.data ++ (String.join l).data := by
  simp only [String.join, List.foldl_cons]
  rw [string_foldl_append_data l ("" ++ a)]
  have h0 : ("" : String).data = [] := rfl
  simp [String.data_append, h0]

/-- The character data of a closed piece `join (a :: l) ++ suf` starts with
the data of `a`. -/
theorem join_piece_data (a suf : String) (l : List String) :
    (String.join (a :: l) ++ suf).data = a.data ++ ((String.join l).data ++ suf.data) := by
  rw [String.data_append, string_join_cons_data, List.append_assoc]

/-- `pyRstrip` cannot strip into a prefix whose final character is outside
the stripped character set. -/
theorem pyRstrip_keeps_sig_start (chars p s : String) (hp : p.data <+: s.data)
    (hne : p.data ≠ [])
    (hlast : ∀ c, p.data.getLast? = some c → chars.data.contains c = false) :
    p.data <+: (pyRstrip chars s).data := by
  obtain ⟨r, hr⟩ := hp
  show p.data <+: (s.data.reverse.dropWhile (fun c => chars.data.contains c)).reverse
  rw [← hr, List.reverse_append, List.dropWhile_append]
  by_cases he : (r.reverse.dropWhile (fun c => chars.data.contains c)).isEmpty
  · rw [if_pos he]
    obtain ⟨c, hc⟩ : ∃ c, p.data.getLast? = some c := by
      cases hgl : p.data.getLast? with
      | none => exact absurd (List.getLast?_eq_none_iff.mp hgl) hne
      | some c => exact ⟨c, rfl⟩
    have hhead : p.data.reverse.head? = some c := by
      rw [List.head?_reverse]; exact hc
    obtain ⟨t, ht⟩ : ∃ t, p.data.reverse = c :: t := by
      cases hrev : p.data.reverse with
      | nil => rw [hrev] at hhead; exact absurd hhead (by simp)
      | cons d t =>
        rw [hrev] at hhead
        simp only [List.head?_cons, Option.some_inj] at hhead
        exact ⟨t, by rw [hhead]⟩
    rw [ht, List.dropWhile_cons, if_neg (by simpa using hlast c hc), ← ht, List.reverse_reverse]
  · rw [if_neg he, List.reverse_append, List.reverse_reverse]
    exact List.prefix_append p.data _

/-- The accumulation loop of `_split_function_chunk` keeps every closed
piece starting with `signature_line + chunk_prefix`, and the open buffer
headed by `signature_line + chunk_prefix`. -/
theorem accum_fold_prefix (tok : String → Nat) (maxT : Nat) (sig pre suf : String) :
    ∀ (body : List String) (cs cur : List String) (size : Nat),
      (∀ p ∈ cs, (sig ++ pre).data <+: p.data) →
      (∃ rest, cur = (sig ++ pre) :: rest) →
      (∀ p ∈ (body.foldl (funcStep tok maxT sig pre suf) (cs, cur, size)).1,
          (sig ++ pre).data <+: p.data)
      ∧ (∃ rest, (body.foldl (funcStep tok maxT sig pre suf) (cs, cur, size)).2.1
          = (sig ++ pre) :: rest) := by
  intro body
  induction body with
  | nil => intro cs cur size h1 h2; exact ⟨h1, h2⟩
  | cons line bodyRest ih =>
    intro cs cur size h1 h2
    rw [List.foldl_cons]
    obtain ⟨rest, hrest⟩ := h2
    unfold funcStep
    dsimp only
    split
    · apply ih
      · intro p hp
        rcases List.mem_append.mp hp with hm | hm
        · exact h1 p hm
        · rw [List.mem_singleton] at hm
          subst hm
          rw [hrest, join_piece_data]
          exact List.prefix_append _ _
      · exact ⟨[line], rfl⟩
    · apply ih
      · exact h1
      · exact ⟨rest ++ [line], by rw [hrest]; rfl⟩

/-- Every piece accumulated by `accumPieces` starts with
`signature_line + chunk_prefix`. -/
theorem accumPieces_sig_start (tok : String → Nat) (maxT : Nat) (sig pre suf : String)
    (body : List String) :
    ∀ p ∈ accumPieces tok maxT sig pre suf body, (sig ++ pre).data <+: p.data := by
  intro p hp
  unfold accumPieces at hp
  dsimp only at hp
  have hinv := accum_fold_prefix tok maxT sig pre suf body [] [sig ++ pre] 0
    (by intro q hq; exact absurd hq (List.not_mem_nil q)) ⟨[], rfl⟩
  rcases hfold : body.foldl (funcStep tok maxT sig pre suf) ([], [sig ++ pre], 0)
    with ⟨cs, cur, size⟩
  rw [hfold] at hp hinv
  dsimp only at hp hinv
  obtain ⟨hcs, rest, hcur⟩ := hinv
  split at hp
  · exact hcs p hp
  · rcases List.mem_append.mp hp with hm | hm
    · exact hcs p hm
    · rw [List.mem_singleton] at hm
      subst hm
      rw [hcur, join_piece_data]
      exact List.prefix_append _ _

/-- `mergeLastSmall` keeps every piece starting with
`signature_line + chunk_prefix`, provided the opening token is non-empty
and its final character is not in the closing-token character set. -/
theorem mergeLastSmall_sig_start (tok : String → Nat) (minCS : Nat) (sig pre suf : String)
    (hpre : pre.data ≠ [])
    (hlast : ∀ c, pre.data.getLast? = some c → suf.data.contains c = false)
    (cs : List String) (hcs : ∀ p ∈ cs, (sig ++ pre).data <+: p.data) :
    ∀ p ∈ mergeLastSmall tok minCS sig pre suf cs, (sig ++ pre).data <+: p.data := by
  intro p hp
  rcases hrev : cs.reverse with - | ⟨last, rest1⟩
  · have heq : mergeLastSmall tok minCS sig pre suf cs = cs := by
      unfold mergeLastSmall; rw [hrev]
    rw [heq] at hp
    exact hcs p hp
  · rcases rest1 with - | ⟨prev, rest⟩
    · have heq : mergeLastSmall tok minCS sig pre suf cs = cs := by
        unfold mergeLastSmall; rw [hrev]
      rw [heq] at hp
      exact hcs p hp
    · have heq : mergeLastSmall tok minCS sig pre suf cs
          = if tok last < minCS then
              ((pyRstrip suf prev ++ "\n" ++ pyLstrip (sig ++ pre) last) :: rest).reverse
            else cs := by
        unfold mergeLastSmall; rw [hrev]
      rw [heq] at hp
      have hcs' : cs = rest.reverse ++ [prev, last] := by
        have hcg := congrArg List.reverse hrev
        rw [List.reverse_reverse] at hcg
        rw [hcg]
        simp
      by_cases hsmall : tok last < minCS
      · rw [if_pos hsmall] at hp
        rw [List.reverse_cons] at hp
        rcases List.mem_append.mp hp with hm | hm
        · apply hcs
          rw [hcs']
          exact List.mem_append.mpr (Or.inl hm)
        · rw [List.mem_singleton] at hm
          subst hm
          have hprev : (sig ++ pre).data <+: prev.data := by
            apply hcs
            rw [hcs']
            exact List.mem_append.mpr (Or.inr (by simp))
          have hlastp : (sig ++ pre).data.getLast? = pre.data.getLast? := by
            rw [String.data_append]
            rw [List.getLast?_append_of_ne_nil _ hpre]
          have hstrip : (sig ++ pre).data <+: (pyRstrip suf prev).data := by
            apply pyRstrip_keeps_sig_start suf (sig ++ pre) prev hprev
            · rw [String.data_append]
              intro hemp
              exact hpre (List.append_eq_nil.mp hemp).2
            · intro c hc
              rw [hlastp] at hc
              exact hlast c hc
          obtain ⟨tail, htail⟩ := hstrip
          have hgoal : (pyRstrip suf prev ++ "\n" ++ pyLstrip (sig ++ pre) last).data
              = (sig ++ pre).data
                ++ (tail ++ (("\n" : String).data ++ (pyLstrip (sig ++ pre) last).data)) := by
            rw [String.data_append, String.data_append, ← htail]
            simp [List.append_assoc]
          rw [hgoal]
          exact List.prefix_append _ _
      · rw [if_neg hsmall] at hp
        exact hcs p hp

/-- The texts of the chunks rendered by `renderPieces` are piece texts. -/
theorem renderPieces_text_mem (ch : CodeChunk) (cs : List String) :
    ∀ c ∈ renderPieces ch cs, c.text ∈ cs := by
  intro c hc
  unfold renderPieces at hc
  rw [List.mem_filterMap] at hc
  obtain ⟨p, hp, hpc⟩ := hc
  have hsnd : p.2 ∈ cs := by
    have hm := List.mem_map_of_mem Prod.snd hp
    rw [List.enum_map_snd] at hm
    exact hm
  dsimp only at hpc
  by_cases hb : isBlankStr p.2
  · rw [if_pos hb] at hpc
    exact absurd hpc (by simp)
  · rw [if_neg hb] at hpc
    rw [Option.some_inj] at hpc
    rw [← hpc]
    exact hsnd

/-- Claim C4 (amended): for a FUNCTION/METHOD chunk entering the splitting
path (it has a signature line and body lines), when the block-opening token
is non-empty and does not end with a closing-token character (true of every
language configuration in the code), every piece emitted by
`split_function_chunk` begins with the original signature line followed by
the block-opening token.  The other half of the original claim — each
piece's token count at most `max_tokens` — is refuted by the
counterexample. -/
theorem c4_pieces_start_with_signature (tok : String → Nat) (maxT minCS : Nat)
    (pre suf : String) (ch : CodeChunk) (sig : String) (body : List String)
    (hsb : sigAndBody ch.text = some (sig, body))
    (hpre : pre.data ≠ [])
    (hlast : ∀ c, pre.data.getLast? = some c → suf.data.contains c = false) :
    ∀ k ∈ split_function_chunk tok maxT minCS pre suf ch,
      (sig ++ pre).data <+: k.text.data := by
  intro k hk
  unfold split_function_chunk at hk
  rw [hsb] at hk
  have htext := renderPieces_text_mem ch _ k hk
  exact mergeLastSmall_sig_start tok minCS sig pre suf hpre hlast _
    (accumPieces_sig_start tok maxT sig pre suf body) k.text htext

/-- Claim C4, witness: in a concrete two-line function split whose
undersized tail is merged back, the emitted piece still starts with the
signature line plus opening token. -/
theorem c4_pieces_start_with_signature_witness :
    ("ab" ++ ":").data <+:
      (({ text := "ab:xyz\n9", meta := exFuncChunkB.meta } : CodeChunk)).text.data := by
  apply c4_pieces_start_with_signature charCountTok 4 7 ":" "" exFuncChunkB "ab" ["xyz", "ba9"]
    (by decide) (by decide)
    (by intro c hc; simp only [List.getLast?_singleton, Option.some_inj] at hc; subst hc; decide)
  decide

/-- Claim C4, counterexample to the claim as stated: a FUNCTION chunk over
the budget whose single body line alone exceeds `max_tokens` produces a
piece whose token count exceeds `max_tokens`. -/
theorem c4_counterexample :
    exFuncChunkA.meta.chunk_type = CodeChunkType.FUNCTION ∧
    5 < charCountTok exFuncChunkA.text ∧
    ∃ c ∈ split_function_chunk charCountTok 5 0 " \x7b\n" "\n\x7d" exFuncChunkA,
      5 < charCountTok c.text := by
  exact ⟨rfl, by decide, by decide⟩

/-- Claim C5 (amended): when the accumulation produced more than one piece
and the final piece's token count is below `min_chunk_size`, the final
piece is not emitted standalone: the piece list loses one entry, and the
last emitted piece is
`prev.rstrip(chunk_suffix) + "\n" + last.lstrip(signature + chunk_prefix)`
with Python character-set strip semantics — characters are stripped by
membership in the character sets of the closing token and of the
signature+opening prefix, which can remove more than the exact tokens (see
the counterexample against the claim's exact-removal reading). -/
theorem c5_undersized_final_piece_merged (tok : String → Nat) (maxT minCS : Nat)
    (pre suf : String) (ch : CodeChunk) (sig : String) (body front : List String)
    (prev last : String)
    (hsb : sigAndBody ch.text = some (sig, body))
    (hacc : accumPieces tok maxT sig pre suf body = front ++ [prev, last])
    (hsmall : tok last < minCS) :
    split_function_chunk tok maxT minCS pre suf ch
      = renderPieces ch (front ++ [pyRstrip suf prev ++ "\n" ++ pyLstrip (sig ++ pre) last])
    ∧ (mergeLastSmall tok minCS sig pre suf (front ++ [prev, last])).length
      = (front ++ [prev, last]).length - 1 := by
  have hrev : (front ++ [prev, last]).reverse = last :: prev :: front.reverse := by simp
  have hm : mergeLastSmall tok minCS sig pre suf (front ++ [prev, last])
      = front ++ [pyRstrip suf prev ++ "\n" ++ pyLstrip (sig ++ pre) last] := by
    unfold mergeLastSmall
    rw [hrev]
    show (if tok last < minCS
        then ((pyRstrip suf prev ++ "\n" ++ pyLstrip (sig ++ pre) last) :: front.reverse).reverse
        else front ++ [prev, last])
      = front ++ [pyRstrip suf prev ++ "\n" ++ pyLstrip (sig ++ pre) last]
    rw [if_pos hsmall, List.reverse_cons, List.reverse_reverse]
  refine ⟨?_, ?_⟩
  · unfold split_function_chunk
    rw [hsb]
    show renderPieces ch
        (mergeLastSmall tok minCS sig pre suf (accumPieces tok maxT sig pre suf body))
      = renderPieces ch (front ++ [pyRstrip suf prev ++ "\n" ++ pyLstrip (sig ++ pre) last])
    rw [hacc, hm]
  · rw [hm]
    simp

/-- Claim C5, witness: the amended theorem at the concrete two-piece split
of `exFuncChunkB`. -/
theorem c5_undersized_final_piece_merged_witness :
    split_function_chunk charCountTok 4 7 ":" "" exFuncChunkB
      = renderPieces exFuncChunkB
          ([] ++ [pyRstrip "" "ab:xyz" ++ "\n" ++ pyLstrip ("ab" ++ ":") "ab:ba9"])
    ∧ (mergeLastSmall charCountTok 7 "ab" ":" "" ([] ++ ["ab:xyz", "ab:ba9"])).length
      = (([] : List String) ++ ["ab:xyz", "ab:ba9"]).length - 1 :=
  c5_undersized_final_piece_merged charCountTok 4 7 ":" "" exFuncChunkB "ab" ["xyz", "ba9"]
    [] "ab:xyz" "ab:ba9" (by decide) (by decide) (by decide)

/-- Claim C5, counterexample to the claim as stated: in the merged result
the final piece's body text `ba9` is not appended intact — `lstrip` removes
its leading characters `b`, `a` because they belong to the
signature+prefix character set, so the code yields `ab:xyz\n9` while
removing exactly the closing token and the repeated signature/opening
prefix (as the claim words it, modelled by `specMergeJoin`) would yield
`ab:xyz\nba9`. -/
theorem c5_counterexample :
    accumPieces charCountTok 4 "ab" ":" "" ["xyz", "ba9"] = ["ab:xyz", "ab:ba9"] ∧
    charCountTok "ab:ba9" < 7 ∧
    (split_function_chunk charCountTok 4 7 ":" "" exFuncChunkB).map (fun c => c.text)
      = ["ab:xyz\n9"] ∧
    specMergeJoin "ab" ":" "" "ab:xyz" "ab:ba9" = "ab:xyz\nba9" ∧
    ("ab:xyz\n9" : String) ≠ "ab:xyz\nba9" := by
  exact ⟨by decide, by decide, by decide, by decide, by decide⟩

/-! ## Tree extractors: lemmas for claims C8 and C9 -/

/-- Unfolding the child loop of `_get_all_functions` over nil. -/
theorem gafList_nil (cfg : ChunkerCfg) (pt : String) (anc : List TSNode) :
    get_all_functions_list cfg [] pt anc = [] := by
  simp [get_all_functions_list]

/-- Unfolding the child loop of `_get_all_functions` over cons. -/
theorem gafList_cons (cfg : ChunkerCfg) (c : TSNode) (cs : List TSNode) (pt : String)
    (anc : List TSNode) :
    get_all_functions_list cfg (c :: cs) pt anc
      = get_all_functions cfg c pt anc ++ get_all_functions_list cfg cs pt anc := by
  simp [get_all_functions_list]

/-- The child loop of `_get_all_functions` distributes over append. -/
theorem gafList_append (cfg : ChunkerCfg) :
    ∀ (l1 l2 : List TSNode) (pt : String) (anc : List TSNode),
      get_all_functions_list cfg (l1 ++ l2) pt anc
        = get_all_functions_list cfg l1 pt anc ++ get_all_functions_list cfg l2 pt anc := by
  intro l1
  induction l1 with
  | nil => intro l2 pt anc; simp [gafList_nil]
  | cons c rest ih =>
    intro l2 pt anc
    rw [List.cons_append, gafList_cons, gafList_cons, ih, List.append_assoc]

/-- Below a function-typed parent, `_get_all_functions` collects nothing. -/
theorem gafList_stop (cfg : ChunkerCfg) {pt : String}
    (h : pt ∈ cfg.function_definition_types) :
    ∀ (cs : List TSNode) (anc : List TSNode), get_all_functions_list cfg cs pt anc = [] := by
  intro cs
  induction cs with
  | nil => intro anc; simp [gafList_nil]
  | cons c rest ih =>
    intro anc
    rw [gafList_cons, ih]
    cases c with
    | mk ty fl tx sb eb ccs =>
      unfold get_all_functions
      rw [if_pos h]
      rfl

/-- Members of the child-loop output come from some child. -/
theorem gafList_mem (cfg : ChunkerCfg) :
    ∀ (cs : List TSNode) (pt : String) (anc : List TSNode) (m : TSNode),
      m ∈ get_all_functions_list cfg cs pt anc →
        ∃ c ∈ cs, m ∈ get_all_functions cfg c pt anc := by
  intro cs
  induction cs with
  | nil => intro pt anc m hm; rw [gafList_nil] at hm; exact absurd hm (List.not_mem_nil m)
  | cons c rest ih =>
    intro pt anc m hm
    rw [gafList_cons] at hm
    rcases List.mem_append.mp hm with h | h
    · exact ⟨c, List.mem_cons_self _ _, h⟩
    · obtain ⟨c', hc', hm'⟩ := ih pt anc m h
      exact ⟨c', List.mem_cons_of_mem _ hc', hm'⟩

/-- Unfolding the child loop of `_get_classes_no_methods` over nil. -/
theorem gcnmList_nil (cfg : ChunkerCfg) (pt : String) :
    get_classes_no_methods_list cfg [] pt = [] := by
  simp [get_classes_no_methods_list]

/-- Unfolding the child loop of `_get_classes_no_methods` over cons. -/
theorem gcnmList_cons (cfg : ChunkerCfg) (c : TSNode) (cs : List TSNode) (pt : String) :
    get_classes_no_methods_list cfg (c :: cs) pt
      = get_classes_no_methods cfg c pt ++ get_classes_no_methods_list cfg cs pt := by
  simp [get_classes_no_methods_list]

/-- The child loop of `_get_classes_no_methods` distributes over append. -/
theorem gcnmList_append (cfg : ChunkerCfg) :
    ∀ (l1 l2 : List TSNode) (pt : String),
      get_classes_no_methods_list cfg (l1 ++ l2) pt
        = get_classes_no_methods_list cfg l1 pt ++ get_classes_no_methods_list cfg l2 pt := by
  intro l1
  induction l1 with
  | nil => intro l2 pt; simp [gcnmList_nil]
  | cons c rest ih =>
    intro l2 pt
    rw [List.cons_append, gcnmList_cons, gcnmList_cons, ih, List.append_assoc]

/-- Below a class-typed parent, `_get_classes_no_methods` collects nothing. -/
theorem gcnmList_stop (cfg : ChunkerCfg) {pt : String}
    (h : pt ∈ cfg.class_definition_types) :
    ∀ (cs : List TSNode), get_classes_no_methods_list cfg cs pt = [] := by
  intro cs
  induction cs with
  | nil => simp [gcnmList_nil]
  | cons c rest ih =>
    rw [gcnmList_cons, ih]
    cases c with
    | mk ty fl tx sb eb ccs =>
      unfold get_classes_no_methods
      rw [if_pos h]
      rfl

/-- Members of the class child-loop output come from some child. -/
theorem gcnmList_mem (cfg : ChunkerCfg) :
    ∀ (cs : List TSNode) (pt : String) (m : TSNode),
      m ∈ get_classes_no_methods_list cfg cs pt →
        ∃ c ∈ cs, m ∈ get_classes_no_methods cfg c pt := by
  intro cs
  induction cs with
  | nil => intro pt m hm; rw [gcnmList_nil] at hm; exact absurd hm (List.not_mem_nil m)
  | cons c rest ih =>
    intro pt m hm
    rw [gcnmList_cons] at hm
    rcases List.mem_append.mp hm with h | h
    · exact ⟨c, List.mem_cons_self _ _, h⟩
    · obtain ⟨c', hc', hm'⟩ := ih pt m h
      exact ⟨c', List.mem_cons_of_mem _ hc', hm'⟩

/-- Members of a type-free forest are type-free. -/
theorem freeOfTypesList_mem :
    ∀ (tys : List String) (l : List TSNode), freeOfTypesList tys l = true →
      ∀ m ∈ l, freeOfTypes tys m = true := by
  intro tys l
  induction l with
  | nil => intro _ m hm; exact absurd hm (List.not_mem_nil m)
  | cons c rest ih =>
    intro h m hm
    unfold freeOfTypesList at h
    rw [Bool.and_eq_true] at h
    rcases List.mem_cons.mp hm with hm | hm
    · subst hm; exact h.1
    · exact ih h.2 m hm

/-- A type-free node's own type is outside the set. -/
theorem freeOfTypes_ty (tys : List String) (n : TSNode) (h : freeOfTypes tys n = true) :
    n.ty ∉ tys := by
  cases n with
  | mk ty fl tx sb eb cs =>
    unfold freeOfTypes at h
    rw [Bool.and_eq_true] at h
    simpa [TSNode.ty] using h.1

/-- A type-free node's children are type-free. -/
theorem freeOfTypes_children (tys : List String) (n : TSNode)
    (h : freeOfTypes tys n = true) : freeOfTypesList tys n.children = true := by
  cases n with
  | mk ty fl tx sb eb cs =>
    unfold freeOfTypes at h
    rw [Bool.and_eq_true] at h
    exact h.2

/-- A subtree containing no function-typed node contributes no collected
function. -/
theorem gaf_free_aux (cfg : ChunkerCfg) (tys : List String)
    (hsub : ∀ t ∈ cfg.function_definition_types, t ∈ tys) :
    ∀ k : Nat,
      (∀ n : TSNode, sizeOf n ≤ k → freeOfTypes tys n = true →
        ∀ pt anc, get_all_functions cfg n pt anc = [])
      ∧ (∀ cs : List TSNode, sizeOf cs ≤ k → freeOfTypesList tys cs = true →
        ∀ pt anc, get_all_functions_list cfg cs pt anc = []) := by
  intro k
  induction k with
  | zero =>
    constructor
    · intro n hn
      exfalso
      cases n
      simp at hn
    · intro cs hcs
      exfalso
      cases cs <;> simp at hcs
  | succ k ih =>
    constructor
    · intro n hn hfree pt anc
      cases n with
      | mk ty fl tx sb eb cs =>
        have hsz : sizeOf cs ≤ k := by
          simp at hn
          omega
        unfold freeOfTypes at hfree
        rw [Bool.and_eq_true] at hfree
        have hty : ty ∉ tys := by simpa using hfree.1
        have hnotf : ¬ ty ∈ cfg.function_definition_types := fun hmem => hty (hsub ty hmem)
        unfold get_all_functions
        by_cases hpt : pt ∈ cfg.function_definition_types
        · rw [if_pos hpt]
        · rw [if_neg hpt, if_neg hnotf, List.nil_append]
          exact ih.2 cs hsz hfree.2 ty _
    · intro cs hcs hfree pt anc
      cases cs with
      | nil => simp [gafList_nil]
      | cons c rest =>
        have hszc : sizeOf c ≤ k := by
          simp at hcs
          have hr : 0 < sizeOf rest := by cases rest <;> simp
          omega
        have hszr : sizeOf rest ≤ k := by
          simp at hcs
          have hc0 : 0 < sizeOf c := by cases c; simp
          omega
        unfold freeOfTypesList at hfree
        rw [Bool.and_eq_true] at hfree
        rw [gafList_cons, ih.1 c hszc hfree.1 pt anc, ih.2 rest hszr hfree.2 pt anc]
        rfl

/-- A subtree containing no class-typed node contributes no collected
class. -/
theorem gcnm_free_aux (cfg : ChunkerCfg) (tys : List String)
    (hsub : ∀ t ∈ cfg.class_definition_types, t ∈ tys) :
    ∀ k : Nat,
      (∀ n : TSNode, sizeOf n ≤ k → freeOfTypes tys n = true →
        ∀ pt, get_classes_no_methods cfg n pt = [])
      ∧ (∀ cs : List TSNode, sizeOf cs ≤ k → freeOfTypesList tys cs = true →
        ∀ pt, get_classes_no_methods_list cfg cs pt = []) := by
  intro k
  induction k with
  | zero =>
    constructor
    · intro n hn
      exfalso
      cases n
      simp at hn
    · intro cs hcs
      exfalso
      cases cs <;> simp at hcs
  | succ k ih =>
    constructor
    · intro n hn hfree pt
      cases n with
      | mk ty fl tx sb eb cs =>
        have hsz : sizeOf cs ≤ k := by
          simp at hn
          omega
        unfold freeOfTypes at hfree
        rw [Bool.and_eq_true] at hfree
        have hty : ty ∉ tys := by simpa using hfree.1
        have hnotc : ¬ ty ∈ cfg.class_definition_types := fun hmem => hty (hsub ty hmem)
        unfold get_classes_no_methods
        by_cases hpt : pt ∈ cfg.class_definition_types
        · rw [if_pos hpt]
        · rw [if_neg hpt, if_neg (by simp [hnotc]), List.nil_append]
          exact ih.2 cs hsz hfree.2 ty
    · intro cs hcs hfree pt
      cases cs with
      | nil => simp [gcnmList_nil]
      | cons c rest =>
        have hszc : sizeOf c ≤ k := by
          simp at hcs
          have hr : 0 < sizeOf rest := by cases rest <;> simp
          omega
        have hszr : sizeOf rest ≤ k := by
          simp at hcs
          have hc0 : 0 < sizeOf c := by cases c; simp
          omega
        unfold freeOfTypesList at hfree
        rw [Bool.and_eq_true] at hfree
        rw [gcnmList_cons, ih.1 c hszc hfree.1 pt, ih.2 rest hszr hfree.2 pt]
        rfl

/-- `find?` skips a block of elements that all fail the predicate. -/
theorem find?_skip {α : Type} (p : α → Bool) (l1 l2 : List α)
    (h : ∀ x ∈ l1, p x = false) : (l1 ++ l2).find? p = l2.find? p := by
  rw [List.find?_append]
  have h1 : l1.find? p = none := by
    rw [List.find?_eq_none]
    intro x hx
    simp [h x hx]
  rw [h1, Option.none_or]

/-- One unfolding of `_get_all_functions` at a node whose parent is not
function-typed. -/
theorem gaf_unfold (cfg : ChunkerCfg) (n : TSNode) (pt : String) (anc : List TSNode)
    (hpt : pt ∉ cfg.function_definition_types) :
    get_all_functions cfg n pt anc
      = (if n.ty ∈ cfg.function_definition_types then
          (if is_collectable_function cfg n then [n]
           else if is_constructor cfg n then
             (if is_only_function_in_class cfg n anc then [n] else [])
           else [])
         else [])
        ++ get_all_functions_list cfg n.children n.ty (n :: anc) := by
  cases n with
  | mk ty fl tx sb eb cs =>
    unfold get_all_functions
    rw [if_neg hpt]
    rfl

/-- One unfolding of `_get_classes_no_methods` at a node whose parent is
not class-typed. -/
theorem gcnm_unfold (cfg : ChunkerCfg) (n : TSNode) (pt : String)
    (hpt : pt ∉ cfg.class_definition_types) :
    get_classes_no_methods cfg n pt
      = (if n.ty ∈ cfg.class_definition_types ∧ ¬ (has_methods cfg n = true)
         then [n] else [])
        ++ get_classes_no_methods_list cfg n.children n.ty := by
  cases n with
  | mk ty fl tx sb eb cs =>
    unfold get_classes_no_methods
    rw [if_neg hpt]
    rfl

/-- Claim C8: in a Python tree whose only class contains exactly one
function definition, the constructor `__init__`, the extractors collect the
constructor as a function chunk standing in for the class (exactly one
FUNCTION chunk) and do not collect the class as a no-method class (no CLASS
chunk).  The tree is the general family: a module of `pre ++ [C] ++ post`,
the class `C` of `cpre ++ [B]` with body block `B` of
`bpre ++ [init] ++ bpost`, where the surrounding forests contain no
function- or class-typed nodes and the field labels make `B` the body of
`C` and `nameNode` (with text `__init__`) the name of `init`. -/
theorem c8_constructor_stands_for_class
    (pre post cpre bpre bpost icpre icpost : List TSNode)
    (nameNode init B C root : TSNode)
    (ifld cfld rfld : Option String) (itx btx ctx rtx : String)
    (isb ieb bsb beb csb ceb rsb reb : Nat)
    (hinit : init = TSNode.mk "function_definition" ifld itx isb ieb
      (icpre ++ nameNode :: icpost))
    (hB : B = TSNode.mk "block" (some "body") btx bsb beb (bpre ++ init :: bpost))
    (hC : C = TSNode.mk "class_definition" cfld ctx csb ceb (cpre ++ [B]))
    (hroot : root = TSNode.mk "module" rfld rtx rsb reb (pre ++ C :: post))
    (hfpre : freeOfTypesList ["function_definition", "class_definition"] pre = true)
    (hfpost : freeOfTypesList ["function_definition", "class_definition"] post = true)
    (hfcpre : freeOfTypesList ["function_definition", "class_definition"] cpre = true)
    (hfbpre : freeOfTypesList ["function_definition", "class_definition"] bpre = true)
    (hfbpost : freeOfTypesList ["function_definition", "class_definition"] bpost = true)
    (hcpreFld : ∀ m ∈ cpre, m.fld ≠ some "body")
    (hicFld : ∀ m ∈ icpre, m.fld ≠ some "name")
    (hnmFld : nameNode.fld = some "name")
    (hnmTxt : nameNode.txt = "__init__") :
    get_all_functions pythonCfg root "" [] = [init]
    ∧ get_classes_no_methods pythonCfg root "" = [] := by
  have hrootTy : root.ty = "module" := by rw [hroot]; rfl
  have hrootCh : root.children = pre ++ C :: post := by rw [hroot]; rfl
  have hCty : C.ty = "class_definition" := by rw [hC]; rfl
  have hCch : C.children = cpre ++ [B] := by rw [hC]; rfl
  have hBty : B.ty = "block" := by rw [hB]; rfl
  have hBfld : B.fld = some "body" := by rw [hB]; rfl
  have hBch : B.children = bpre ++ init :: bpost := by rw [hB]; rfl
  have hIty : init.ty = "function_definition" := by rw [hinit]; rfl
  have hIch : init.children = icpre ++ nameNode :: icpost := by rw [hinit]; rfl
  have hsubBoth : ∀ t ∈ pythonCfg.function_definition_types,
      t ∈ ["function_definition", "class_definition"] := by decide
  have hsubCls : ∀ t ∈ pythonCfg.class_definition_types,
      t ∈ ["function_definition", "class_definition"] := by decide
  have hfreeF : ∀ (l : List TSNode),
      freeOfTypesList ["function_definition", "class_definition"] l = true →
      ∀ pt anc, get_all_functions_list pythonCfg l pt anc = [] := by
    intro l hl pt anc
    exact (gaf_free_aux pythonCfg ["function_definition", "class_definition"] hsubBoth
      (sizeOf l)).2 l (le_refl _) hl pt anc
  have hfreeC : ∀ (l : List TSNode),
      freeOfTypesList ["function_definition", "class_definition"] l = true →
      ∀ pt, get_classes_no_methods_list pythonCfg l pt = [] := by
    intro l hl pt
    exact (gcnm_free_aux pythonCfg ["function_definition", "class_definition"] hsubCls
      (sizeOf l)).2 l (le_refl _) hl pt
  have hfindName : childByFieldName init pythonCfg.name_field = some nameNode := by
    unfold childByFieldName
    rw [hIch]
    rw [find?_skip _ icpre (nameNode :: icpost)
      (fun x hx => by simp [hicFld x hx, pythonCfg])]
    rw [List.find?_cons_of_pos _ (by simp [hnmFld, pythonCfg])]
  have hIsCtor : is_constructor pythonCfg init = true := by
    unfold is_constructor
    rw [hfindName]
    show (if nameNode.txt = "" then false
      else decide (init.ty ∈ pythonCfg.function_definition_types)
        && (nameNode.txt == pythonCfg.constructor_name)) = true
    rw [if_neg (by rw [hnmTxt]; exact by decide)]
    rw [Bool.and_eq_true]
    constructor
    · simp [hIty, pythonCfg]
    · simp [hnmTxt, pythonCfg]
  have hNotCollectable : is_collectable_function pythonCfg init = false := by
    have hname : get_function_name pythonCfg init = some "__init__" := by
      unfold get_function_name
      rw [if_neg (by simp [pythonCfg])]
      have hcbn : childByFieldName init "name" = some nameNode := by
        have hpn : pythonCfg.name_field = "name" := rfl
        rw [← hpn]
        exact hfindName
      rw [hcbn]
      show (if nameNode.txt = "" then none else some nameNode.txt) = some "__init__"
      rw [if_neg (by rw [hnmTxt]; exact by decide)]
      rw [hnmTxt]
    unfold is_collectable_function
    rw [if_neg (by simp [pythonCfg])]
    rw [hname]
    simp [pythonCfg]
  have hOnly : is_only_function_in_class pythonCfg init [B, C, root] = true := by
    unfold is_only_function_in_class
    have hfind : List.find? (fun a => decide (a.ty ∈ pythonCfg.class_definition_types))
        [B, C, root] = some C := by
      rw [List.find?_cons_of_neg _ (by simp [hBty, pythonCfg])]
      rw [List.find?_cons_of_pos _ (by simp [hCty, pythonCfg])]
    rw [hfind]
    have hbody : childByFieldName C pythonCfg.class_body_field = some B := by
      unfold childByFieldName
      rw [hCch]
      rw [find?_skip _ cpre [B] (fun x hx => by simp [hcpreFld x hx, pythonCfg])]
      rw [List.find?_cons_of_pos _ (by simp [hBfld, pythonCfg])]
    show (match childByFieldName C pythonCfg.class_body_field with
      | none => false
      | some body =>
        decide ((body.children.filter
          (fun c => decide (c.ty ∈ pythonCfg.function_definition_types)
            && !(decide (c = init)))).length = 0)) = true
    rw [hbody]
    show decide ((B.children.filter
      (fun c => decide (c.ty ∈ pythonCfg.function_definition_types)
        && !(decide (c = init)))).length = 0) = true
    rw [hBch]
    have hfilter : List.filter
        (fun c => decide (c.ty ∈ pythonCfg.function_definition_types) && !(decide (c = init)))
        (bpre ++ init :: bpost) = [] := by
      rw [List.filter_eq_nil_iff]
      intro a ha
      rcases List.mem_append.mp ha with h | h
      · have hfa := freeOfTypesList_mem _ _ hfbpre a h
        have hta := freeOfTypes_ty _ _ hfa
        simp only [Bool.and_eq_true, decide_eq_true_eq, not_and]
        intro hmem
        exact absurd (hsubBoth a.ty hmem) hta
      · rcases List.mem_cons.mp h with h | h
        · subst h
          simp
        · have hfa := freeOfTypesList_mem _ _ hfbpost a h
          have hta := freeOfTypes_ty _ _ hfa
          simp only [Bool.and_eq_true, decide_eq_true_eq, not_and]
          intro hmem
          exact absurd (hsubBoth a.ty hmem) hta
    rw [hfilter]
    rfl

  constructor
  · rw [gaf_unfold pythonCfg root "" [] (by decide)]
    rw [hrootTy, hrootCh]
    rw [if_neg (by decide)]
    rw [List.nil_append, gafList_append, hfreeF pre hfpre _ _, List.nil_append, gafList_cons]
    rw [gaf_unfold pythonCfg C "module" [root] (by decide)]
    rw [hCty, hCch]
    rw [if_neg (by decide)]
    rw [List.nil_append, gafList_append, hfreeF cpre hfcpre _ _, List.nil_append,
      gafList_cons, gafList_nil, List.append_nil]
    rw [gaf_unfold pythonCfg B "class_definition" [C, root] (by decide)]
    rw [hBty, hBch]
    rw [if_neg (by decide)]
    rw [List.nil_append, gafList_append, hfreeF bpre hfbpre _ _, List.nil_append, gafList_cons]
    rw [gaf_unfold pythonCfg init "block" [B, C, root] (by decide)]
    rw [hIty, hIch]
    rw [if_pos (by decide)]
    rw [if_neg (by simp [hNotCollectable])]
    rw [if_pos hIsCtor, if_pos hOnly]
    rw [gafList_stop pythonCfg (by decide), hfreeF bpost hfbpost _ _, hfreeF post hfpost _ _]
    simp
  · rw [gcnm_unfold pythonCfg root "" (by decide)]
    rw [hrootTy, hrootCh]
    rw [if_neg (fun h => absurd h.1 (by decide))]
    rw [List.nil_append, gcnmList_append, hfreeC pre hfpre _, List.nil_append, gcnmList_cons]
    rw [gcnm_unfold pythonCfg C "module" (by decide)]
    rw [hCty, hCch]
    have hhm : has_methods pythonCfg C = true := by
      unfold has_methods
      rw [hCch, List.any_eq_true]
      refine ⟨B, by simp, ?_⟩
      rw [Bool.or_eq_true]
      right
      rw [hBch, List.any_eq_true]
      refine ⟨init, by simp, ?_⟩
      simp [hIty, pythonCfg]
    rw [if_neg (by simp [hhm])]
    rw [List.nil_append, gcnmList_stop pythonCfg (by decide), hfreeC post hfpost _]
    simp

/-- Claim C8, witness: the concrete one-class module whose class holds only
`__init__` yields exactly the constructor as collected function and no
no-method class. -/
theorem c8_constructor_stands_for_class_witness :
    get_all_functions pythonCfg exModuleRoot "" [] = [exInitNode]
    ∧ get_classes_no_methods pythonCfg exModuleRoot "" = [] :=
  c8_constructor_stands_for_class [] [] [exClsNameNode] [] [] [] [exInitParams, exInitBlock]
    exNameNode exInitNode exClassBody exClassNode exModuleRoot
    none none none "def __init__(self): pass" "" "class A: ..." "" 6 34 6 34 0 34 0 34
    rfl rfl rfl rfl (by decide) (by decide) (by decide) (by decide) (by decide)
    (by decide) (by decide) rfl rfl

/-- Below a function-typed parent, a single node contributes nothing. -/
theorem gaf_stop (cfg : ChunkerCfg) (n : TSNode) (pt : String) (anc : List TSNode)
    (h : pt ∈ cfg.function_definition_types) : get_all_functions cfg n pt anc = [] := by
  cases n
  unfold get_all_functions
  rw [if_pos h]

/-- Below a class-typed parent, a single node contributes no class. -/
theorem gcnm_stop (cfg : ChunkerCfg) (n : TSNode) (pt : String)
    (h : pt ∈ cfg.class_definition_types) : get_classes_no_methods cfg n pt = [] := by
  cases n
  unfold get_classes_no_methods
  rw [if_pos h]

/-- The four components of well-positionedness at a node. -/
theorem wellPos_parts (ty : String) (fl : Option String) (tx : String) (sb eb : Nat)
    (cs : List TSNode) (h : wellPosB (.mk ty fl tx sb eb cs) = true) :
    sb ≤ eb ∧ spansChainB cs = true
    ∧ (∀ c ∈ cs, sb ≤ c.startByte ∧ c.endByte ≤ eb)
    ∧ wellPosList cs = true := by
  unfold wellPosB at h
  rw [Bool.and_eq_true, Bool.and_eq_true, Bool.and_eq_true] at h
  obtain ⟨⟨⟨h1, h2⟩, h3⟩, h4⟩ := h
  refine ⟨by simpa using h1, h2, ?_, h4⟩
  intro c hc
  rw [List.all_eq_true] at h3
  have := h3 c hc
  rw [Bool.and_eq_true] at this
  exact ⟨by simpa using this.1, by simpa using this.2⟩

/-- A well-positioned node has a well-formed span. -/
theorem wellPos_self (n : TSNode) (h : wellPosB n = true) : n.startByte ≤ n.endByte := by
  cases n with
  | mk ty fl tx sb eb cs => exact (wellPos_parts ty fl tx sb eb cs h).1

/-- Members of a well-positioned forest are well-positioned. -/
theorem wellPosList_mem :
    ∀ (cs : List TSNode), wellPosList cs = true → ∀ c ∈ cs, wellPosB c = true := by
  intro cs
  induction cs with
  | nil => intro _ c hc; exact absurd hc (List.not_mem_nil c)
  | cons c rest ih =>
    intro h m hm
    unfold wellPosList at h
    rw [Bool.and_eq_true] at h
    rcases List.mem_cons.mp hm with hm | hm
    · subst hm; exact h.1
    · exact ih h.2 m hm

/-- The tail of a span chain is a span chain. -/
theorem spansChain_tail (c : TSNode) (rest : List TSNode)
    (h : spansChainB (c :: rest) = true) : spansChainB rest = true := by
  cases rest with
  | nil => rfl
  | cons d ds =>
    unfold spansChainB at h
    rw [Bool.and_eq_true] at h
    exact h.2

/-- In a span chain of well-formed spans, the head ends before every later
element starts. -/
theorem spansChain_head :
    ∀ (rest : List TSNode) (c : TSNode), spansChainB (c :: rest) = true →
      (∀ z ∈ rest, z.startByte ≤ z.endByte) →
      ∀ c2 ∈ rest, c.endByte ≤ c2.startByte := by
  intro rest
  induction rest with
  | nil => intro c _ _ c2 hc2; exact absurd hc2 (List.not_mem_nil c2)
  | cons d ds ih =>
    intro c hch hv c2 hc2
    unfold spansChainB at hch
    rw [Bool.and_eq_true] at hch
    have h1 : c.endByte ≤ d.startByte := by simpa using hch.1
    rcases List.mem_cons.mp hc2 with h | h
    · subst h; exact h1
    · have h2 := ih d hch.2 (fun z hz => hv z (List.mem_cons_of_mem _ hz)) c2 h
      have h3 : d.startByte ≤ d.endByte := hv d (List.mem_cons_self _ _)
      omega

/-- Every collected function lies within the span of the node it came from,
with a well-formed span of its own. -/
theorem gaf_within_aux (cfg : ChunkerCfg) :
    ∀ k : Nat,
      (∀ n : TSNode, sizeOf n ≤ k → wellPosB n = true →
        ∀ pt anc m, m ∈ get_all_functions cfg n pt anc →
          n.startByte ≤ m.startByte ∧ m.endByte ≤ n.endByte ∧ m.startByte ≤ m.endByte)
      ∧ (∀ cs : List TSNode, sizeOf cs ≤ k → wellPosList cs = true →
        ∀ pt anc m, m ∈ get_all_functions_list cfg cs pt anc →
          ∃ c ∈ cs, c.startByte ≤ m.startByte ∧ m.endByte ≤ c.endByte
            ∧ m.startByte ≤ m.endByte) := by
  intro k
  induction k with
  | zero =>
    constructor
    · intro n hn
      exfalso
      cases n
      simp at hn
    · intro cs hcs
      exfalso
      cases cs <;> simp at hcs
  | succ k ih =>
    constructor
    · intro n hn hw pt anc m hm
      by_cases hpt : pt ∈ cfg.function_definition_types
      · rw [gaf_stop cfg n pt anc hpt] at hm
        exact absurd hm (List.not_mem_nil m)
      · rw [gaf_unfold cfg n pt anc hpt] at hm
        cases n with
        | mk ty fl tx sb eb cs =>
          have hparts := wellPos_parts ty fl tx sb eb cs hw
          have hsz : sizeOf cs ≤ k := by
            simp at hn
            omega
          rcases List.mem_append.mp hm with hm | hm
          · have hmn : m = TSNode.mk ty fl tx sb eb cs := by
              rcases (by assumption : pt ∉ cfg.function_definition_types) with -
              split at hm
              · split at hm
                · simpa using hm
                · split at hm
                  · split at hm
                    · simpa using hm
                    · exact absurd hm (List.not_mem_nil m)
                  · exact absurd hm (List.not_mem_nil m)
              · exact absurd hm (List.not_mem_nil m)
            subst hmn
            exact ⟨le_refl _, le_refl _, hparts.1⟩
          · obtain ⟨c, hc, h1, h2, h3⟩ :=
              ih.2 cs hsz hparts.2.2.2 ty (TSNode.mk ty fl tx sb eb cs :: anc) m hm
            have hcont := hparts.2.2.1 c hc
            exact ⟨by simpa using le_trans hcont.1 h1,
              by simpa using le_trans h2 hcont.2, h3⟩
    · intro cs hcs hw pt anc m hm
      cases cs with
      | nil =>
        rw [gafList_nil] at hm
        exact absurd hm (List.not_mem_nil m)
      | cons c rest =>
        have hszc : sizeOf c ≤ k := by
          simp at hcs
          have hr : 0 < sizeOf rest := by cases rest <;> simp
          omega
        have hszr : sizeOf rest ≤ k := by
          simp at hcs
          have hc0 : 0 < sizeOf c := by cases c; simp
          omega
        unfold wellPosList at hw
        rw [Bool.and_eq_true] at hw
        rw [gafList_cons] at hm
        rcases List.mem_append.mp hm with hm | hm
        · obtain ⟨h1, h2, h3⟩ := ih.1 c hszc hw.1 pt anc m hm
          exact ⟨c, List.mem_cons_self _ _, h1, h2, h3⟩
        · obtain ⟨c', hc', h1, h2, h3⟩ := ih.2 rest hszr hw.2 pt anc m hm
          exact ⟨c', List.mem_cons_of_mem _ hc', h1, h2, h3⟩

/-- Containment of collected functions, top-level form. -/
theorem gaf_within (cfg : ChunkerCfg) (n : TSNode) (pt : String) (anc : List TSNode)
    (m : TSNode) (hw : wellPosB n = true) (hm : m ∈ get_all_functions cfg n pt anc) :
    n.startByte ≤ m.startByte ∧ m.endByte ≤ n.endByte ∧ m.startByte ≤ m.endByte :=
  (gaf_within_aux cfg (sizeOf n)).1 n (le_refl _) hw pt anc m hm

/-- Collected functions appear with nondecreasing start bytes, on
well-positioned trees. -/
theorem gaf_chain_aux (cfg : ChunkerCfg) :
    ∀ k : Nat,
      (∀ n : TSNode, sizeOf n ≤ k → wellPosB n = true → ∀ pt anc,
        List.Chain' (fun a b : TSNode => a.startByte ≤ b.startByte)
          (get_all_functions cfg n pt anc))
      ∧ (∀ cs : List TSNode, sizeOf cs ≤ k → wellPosList cs = true →
          spansChainB cs = true → ∀ pt anc,
        List.Chain' (fun a b : TSNode => a.startByte ≤ b.startByte)
          (get_all_functions_list cfg cs pt anc)) := by
  intro k
  induction k with
  | zero =>
    constructor
    · intro n hn
      exfalso
      cases n
      simp at hn
    · intro cs hcs
      exfalso
      cases cs <;> simp at hcs
  | succ k ih =>
    constructor
    · intro n hn hw pt anc
      by_cases hpt : pt ∈ cfg.function_definition_types
      · rw [gaf_stop cfg n pt anc hpt]
        exact List.chain'_nil
      · rw [gaf_unfold cfg n pt anc hpt]
        cases n with
        | mk ty fl tx sb eb cs =>
          have hparts := wellPos_parts ty fl tx sb eb cs hw
          have hsz : sizeOf cs ≤ k := by
            simp at hn
            omega
          have hlist := ih.2 cs hsz hparts.2.2.2 hparts.2.1 ty
            (TSNode.mk ty fl tx sb eb cs :: anc)
          have hhd : (if (TSNode.mk ty fl tx sb eb cs).ty ∈ cfg.function_definition_types then
              (if is_collectable_function cfg (TSNode.mk ty fl tx sb eb cs) then
                [TSNode.mk ty fl tx sb eb cs]
               else if is_constructor cfg (TSNode.mk ty fl tx sb eb cs) then
                 (if is_only_function_in_class cfg (TSNode.mk ty fl tx sb eb cs) anc then
                   [TSNode.mk ty fl tx sb eb cs]
                  else [])
               else [])
             else []) = []
            ∨ (if (TSNode.mk ty fl tx sb eb cs).ty ∈ cfg.function_definition_types then
              (if is_collectable_function cfg (TSNode.mk ty fl tx sb eb cs) then
                [TSNode.mk ty fl tx sb eb cs]
               else if is_constructor cfg (TSNode.mk ty fl tx sb eb cs) then
                 (if is_only_function_in_class cfg (TSNode.mk ty fl tx sb eb cs) anc then
                   [TSNode.mk ty fl tx sb eb cs]
                  else [])
               else [])
             else []) = [TSNode.mk ty fl tx sb eb cs] := by
            split
            · split
              · exact Or.inr rfl
              · split
                · split
                  · exact Or.inr rfl
                  · exact Or.inl rfl
                · exact Or.inl rfl
            · exact Or.inl rfl
          rcases hhd with h | h
          · rw [h, List.nil_append]
            exact hlist
          · rw [h]
            apply List.Chain'.append (List.chain'_singleton _) hlist
            intro x hx y hy
            have hx' : x = TSNode.mk ty fl tx sb eb cs := by
              have := hx
              simp at this
              exact this.symm
            have hy' : y ∈ get_all_functions_list cfg cs ty
                (TSNode.mk ty fl tx sb eb cs :: anc) := List.mem_of_mem_head? hy
            obtain ⟨c, hc, hyc⟩ := gafList_mem cfg cs _ _ y hy'
            have hwc : wellPosB c = true := wellPosList_mem cs hparts.2.2.2 c hc
            have h1 := (gaf_within cfg c _ _ y hwc hyc).1
            have hcont := hparts.2.2.1 c hc
            subst hx'
            show (TSNode.mk ty fl tx sb eb cs).startByte ≤ y.startByte
            exact le_trans hcont.1 h1
    · intro cs hcs hw hch pt anc
      cases cs with
      | nil =>
        rw [gafList_nil]
        exact List.chain'_nil
      | cons c rest =>
        have hszc : sizeOf c ≤ k := by
          simp at hcs
          have hr : 0 < sizeOf rest := by cases rest <;> simp
          omega
        have hszr : sizeOf rest ≤ k := by
          simp at hcs
          have hc0 : 0 < sizeOf c := by cases c; simp
          omega
        unfold wellPosList at hw
        rw [Bool.and_eq_true] at hw
        rw [gafList_cons]
        apply List.Chain'.append (ih.1 c hszc hw.1 pt anc)
          (ih.2 rest hszr hw.2 (spansChain_tail c rest hch) pt anc)
        intro x hx y hy
        have hx' : x ∈ get_all_functions cfg c pt anc := List.mem_of_mem_getLast? hx
        have hy' : y ∈ get_all_functions_list cfg rest pt anc := List.mem_of_mem_head? hy
        obtain ⟨c', hc', hyc⟩ := gafList_mem cfg rest _ _ y hy'
        have hwc : wellPosB c = true := hw.1
        have hwc' : wellPosB c' = true := wellPosList_mem rest hw.2 c' hc'
        obtain ⟨hxa, hxb, hxc⟩ := gaf_within cfg c pt anc x hwc hx'
        have hy1 := (gaf_within cfg c' pt anc y hwc' hyc).1
        have hsep := spansChain_head rest c hch
          (fun z hz => wellPos_self z (wellPosList_mem rest hw.2 z hz)) c' hc'
        omega

/-- Every collected no-method class lies within the span of the node it
came from, with a well-formed span of its own. -/
theorem gcnm_within_aux (cfg : ChunkerCfg) :
    ∀ k : Nat,
      (∀ n : TSNode, sizeOf n ≤ k → wellPosB n = true →
        ∀ pt m, m ∈ get_classes_no_methods cfg n pt →
          n.startByte ≤ m.startByte ∧ m.endByte ≤ n.endByte ∧ m.startByte ≤ m.endByte)
      ∧ (∀ cs : List TSNode, sizeOf cs ≤ k → wellPosList cs = true →
        ∀ pt m, m ∈ get_classes_no_methods_list cfg cs pt →
          ∃ c ∈ cs, c.startByte ≤ m.startByte ∧ m.endByte ≤ c.endByte
            ∧ m.startByte ≤ m.endByte) := by
  intro k
  induction k with
  | zero =>
    constructor
    · intro n hn
      exfalso
      cases n
      simp at hn
    · intro cs hcs
      exfalso
      cases cs <;> simp at hcs
  | succ k ih =>
    constructor
    · intro n hn hw pt m hm
      by_cases hpt : pt ∈ cfg.class_definition_types
      · rw [gcnm_stop cfg n pt hpt] at hm
        exact absurd hm (List.not_mem_nil m)
      · rw [gcnm_unfold cfg n pt hpt] at hm
        cases n with
        | mk ty fl tx sb eb cs =>
          have hparts := wellPos_parts ty fl tx sb eb cs hw
          have hsz : sizeOf cs ≤ k := by
            simp at hn
            omega
          rcases List.mem_append.mp hm with hm | hm
          · have hmn : m = TSNode.mk ty fl tx sb eb cs := by
              split at hm
              · simpa using hm
              · exact absurd hm (List.not_mem_nil m)
            subst hmn
            exact ⟨le_refl _, le_refl _, hparts.1⟩
          · obtain ⟨c, hc, h1, h2, h3⟩ := ih.2 cs hsz hparts.2.2.2 ty m hm
            have hcont := hparts.2.2.1 c hc
            exact ⟨by simpa using le_trans hcont.1 h1,
              by simpa using le_trans h2 hcont.2, h3⟩
    · intro cs hcs hw pt m hm
      cases cs with
      | nil =>
        rw [gcnmList_nil] at hm
        exact absurd hm (List.not_mem_nil m)
      | cons c rest =>
        have hszc : sizeOf c ≤ k := by
          simp at hcs
          have hr : 0 < sizeOf rest := by cases rest <;> simp
          omega
        have hszr : sizeOf rest ≤ k := by
          simp at hcs
          have hc0 : 0 < sizeOf c := by cases c; simp
          omega
        unfold wellPosList at hw
        rw [Bool.and_eq_true] at hw
        rw [gcnmList_cons] at hm
        rcases List.mem_append.mp hm with hm | hm
        · obtain ⟨h1, h2, h3⟩ := ih.1 c hszc hw.1 pt m hm
          exact ⟨c, List.mem_cons_self _ _, h1, h2, h3⟩
        · obtain ⟨c', hc', h1, h2, h3⟩ := ih.2 rest hszr hw.2 pt m hm
          exact ⟨c', List.mem_cons_of_mem _ hc', h1, h2, h3⟩

/-- Containment of collected no-method classes, top-level form. -/
theorem gcnm_within (cfg : ChunkerCfg) (n : TSNode) (pt : String) (m : TSNode)
    (hw : wellPosB n = true) (hm : m ∈ get_classes_no_methods cfg n pt) :
    n.startByte ≤ m.startByte ∧ m.endByte ≤ n.endByte ∧ m.startByte ≤ m.endByte :=
  (gcnm_within_aux cfg (sizeOf n)).1 n (le_refl _) hw pt m hm

/-- Collected no-method classes appear with nondecreasing start bytes, on
well-positioned trees. -/
theorem gcnm_chain_aux (cfg : ChunkerCfg) :
    ∀ k : Nat,
      (∀ n : TSNode, sizeOf n ≤ k → wellPosB n = true → ∀ pt,
        List.Chain' (fun a b : TSNode => a.startByte ≤ b.startByte)
          (get_classes_no_methods cfg n pt))
      ∧ (∀ cs : List TSNode, sizeOf cs ≤ k → wellPosList cs = true →
          spansChainB cs = true → ∀ pt,
        List.Chain' (fun a b : TSNode => a.startByte ≤ b.startByte)
          (get_classes_no_methods_list cfg cs pt)) := by
  intro k
  induction k with
  | zero =>
    constructor
    · intro n hn
      exfalso
      cases n
      simp at hn
    · intro cs hcs
      exfalso
      cases cs <;> simp at hcs
  | succ k ih =>
    constructor
    · intro n hn hw pt
      by_cases hpt : pt ∈ cfg.class_definition_types
      · rw [gcnm_stop cfg n pt hpt]
        exact List.chain'_nil
      · rw [gcnm_unfold cfg n pt hpt]
        cases n with
        | mk ty fl tx sb eb cs =>
          have hparts := wellPos_parts ty fl tx sb eb cs hw
          have hsz : sizeOf cs ≤ k := by
            simp at hn
            omega
          have hlist := ih.2 cs hsz hparts.2.2.2 hparts.2.1 ty
          have hhd : (if (TSNode.mk ty fl tx sb eb cs).ty ∈ cfg.class_definition_types
                ∧ ¬ (has_methods cfg (TSNode.mk ty fl tx sb eb cs) = true)
              then [TSNode.mk ty fl tx sb eb cs] else []) = []
            ∨ (if (TSNode.mk ty fl tx sb eb cs).ty ∈ cfg.class_definition_types
                ∧ ¬ (has_methods cfg (TSNode.mk ty fl tx sb eb cs) = true)
              then [TSNode.mk ty fl tx sb eb cs] else [])
              = [TSNode.mk ty fl tx sb eb cs] := by
            split
            · exact Or.inr rfl
            · exact Or.inl rfl
          rcases hhd with h | h
          · rw [h, List.nil_append]
            exact hlist
          · rw [h]
            apply List.Chain'.append (List.chain'_singleton _) hlist
            intro x hx y hy
            have hx' : x = TSNode.mk ty fl tx sb eb cs := by
              have := hx
              simp at this
              exact this.symm
            have hy' : y ∈ get_classes_no_methods_list cfg cs ty := List.mem_of_mem_head? hy
            obtain ⟨c, hc, hyc⟩ := gcnmList_mem cfg cs _ y hy'
            have hwc : wellPosB c = true := wellPosList_mem cs hparts.2.2.2 c hc
            have h1 := (gcnm_within cfg c _ y hwc hyc).1
            have hcont := hparts.2.2.1 c hc
            subst hx'
            show (TSNode.mk ty fl tx sb eb cs).startByte ≤ y.startByte
            exact le_trans hcont.1 h1
    · intro cs hcs hw hch pt
      cases cs with
      | nil =>
        rw [gcnmList_nil]
        exact List.chain'_nil
      | cons c rest =>
        have hszc : sizeOf c ≤ k := by
          simp at hcs
          have hr : 0 < sizeOf rest := by cases rest <;> simp
          omega
        have hszr : sizeOf rest ≤ k := by
          simp at hcs
          have hc0 : 0 < sizeOf c := by cases c; simp
          omega
        unfold wellPosList at hw
        rw [Bool.and_eq_true] at hw
        rw [gcnmList_cons]
        apply List.Chain'.append (ih.1 c hszc hw.1 pt)
          (ih.2 rest hszr hw.2 (spansChain_tail c rest hch) pt)
        intro x hx y hy
        have hx' : x ∈ get_classes_no_methods cfg c pt := List.mem_of_mem_getLast? hx
        have hy' : y ∈ get_classes_no_methods_list cfg rest pt := List.mem_of_mem_head? hy
        obtain ⟨c', hc', hyc⟩ := gcnmList_mem cfg rest _ y hy'
        have hwc' : wellPosB c' = true := wellPosList_mem rest hw.2 c' hc'
        obtain ⟨hxa, hxb, hxc⟩ := gcnm_within cfg c pt x hw.1 hx'
        have hy1 := (gcnm_within cfg c' pt y hwc' hyc).1
        have hsep := spansChain_head rest c hch
          (fun z hz => wellPos_self z (wellPosList_mem rest hw.2 z hz)) c' hc'
        omega

/-- Claim C9 (amended): the emitted chunk sequence consists of all function
chunks first, then all no-method class chunks, then any preamble chunk
last; within each of the two categories the source nodes appear in
document order (nondecreasing start bytes, on a well-positioned tree).  A
class chunk whose source node precedes a function chunk's source node in
the document still appears after all function chunks — cross-category
document order does not hold (see the counterexample). -/
theorem c9_emission_order (cfg : ChunkerCfg) (root : TSNode) (hasPreamble : Bool)
    (hw : wellPosB root = true) :
    chunkEmitOrder cfg root hasPreamble
      = (get_all_functions cfg root "" []).map (fun n => (CodeChunkType.FUNCTION, n))
        ++ (get_classes_no_methods cfg root "").map (fun n => (CodeChunkType.CLASS, n))
        ++ (if hasPreamble then [(CodeChunkType.PREAMBLE, root)] else [])
    ∧ List.Chain' (fun a b : TSNode => a.startByte ≤ b.startByte)
        (get_all_functions cfg root "" [])
    ∧ List.Chain' (fun a b : TSNode => a.startByte ≤ b.startByte)
        (get_classes_no_methods cfg root "") :=
  ⟨rfl, (gaf_chain_aux cfg (sizeOf root)).1 root (le_refl _) hw "" [],
    (gcnm_chain_aux cfg (sizeOf root)).1 root (le_refl _) hw ""⟩

/-- Claim C9, witness: the amended theorem at the concrete tree with an
empty class before a function. -/
theorem c9_emission_order_witness :
    chunkEmitOrder pythonCfg exOrderRoot false
      = (get_all_functions pythonCfg exOrderRoot "" []).map
          (fun n => (CodeChunkType.FUNCTION, n))
        ++ (get_classes_no_methods pythonCfg exOrderRoot "").map
          (fun n => (CodeChunkType.CLASS, n))
        ++ (if false then [(CodeChunkType.PREAMBLE, exOrderRoot)] else [])
    ∧ List.Chain' (fun a b : TSNode => a.startByte ≤ b.startByte)
        (get_all_functions pythonCfg exOrderRoot "" [])
    ∧ List.Chain' (fun a b : TSNode => a.startByte ≤ b.startByte)
        (get_classes_no_methods pythonCfg exOrderRoot "") :=
  c9_emission_order pythonCfg exOrderRoot false (by decide)

/-- Claim C9, counterexample to the claim as stated: with an empty class at
bytes 0..16 before a function at bytes 18..31, the emitted sequence is the
FUNCTION chunk (start byte 18) followed by the CLASS chunk (start byte 0),
which is not document order of the source nodes. -/
theorem c9_counterexample :
    (chunkEmitOrder pythonCfg exOrderRoot false).map (fun p => (p.1, p.2.startByte))
      = [(CodeChunkType.FUNCTION, 18), (CodeChunkType.CLASS, 0)]
    ∧ docOrderedB (chunkEmitOrder pythonCfg exOrderRoot false) = false :=
  ⟨rfl, rfl⟩
